import Mathlib

/-!
The mustache spec-test generator (`gen.go`)

A shallow embedding of `gen.go`, the program that walks the mustache
conformance corpus and emits one Go test routine per case, together with the
support code it writes into the generated file.

Modelling conventions.

* A Go `string` is modelled by the list of its code points (`Str`); every
  string handled here is valid UTF-8 (decoded JSON strings always are).
* Functions of the Go standard library (`strings`, `path/filepath`, `fmt`,
  `strconv`, `unicode`) are modelled after their documented behaviour, for a
  Unix path separator.  Unicode tables outside ASCII, the float formatter,
  the value of a floating-point literal, the file system, the JSON decoder
  and `go/format` are parameters.
* `log.Fatal` ends the process: a fatal step is a `none` / `Exit.fatal`.
-/

namespace Mustache

set_option maxRecDepth 100000

/-- A Go string, as the sequence of its code points. -/
abbrev Str := List Char

/-- The double quote character. -/
def dq : Char := Char.ofNat 34

/-- The backslash character. -/
def bs : Char := Char.ofNat 92

/-! ## Unicode tables (package `unicode`, `strconv`) -/

/-- The Unicode tables of the Go standard library, taken as a parameter.  The
fields are only consulted outside the ranges that the library decides by a
direct comparison (see `unicodeIsLetter` and friends). -/
structure UnicodeTables where
  isLetter : Char → Bool
  isDigit : Char → Bool
  isSpace : Char → Bool
  toTitle : Char → Char
  isPrint : Char → Bool

/-- True when `lo ≤ r ≤ hi` as code points. -/
def inRange (lo hi r : Char) : Bool :=
  decide (lo.toNat ≤ r.toNat) && decide (r.toNat ≤ hi.toNat)

/-- ASCII letters. -/
def asciiLetter (r : Char) : Bool :=
  inRange 'a' 'z' r || inRange 'A' 'Z' r

/-- ASCII decimal digits. -/
def asciiDigit (r : Char) : Bool :=
  inRange '0' '9' r

/-- Model of `unicode.IsLetter`: ASCII is decided directly, the rest by table. -/
def unicodeIsLetter (U : UnicodeTables) (r : Char) : Bool :=
  if r.toNat ≤ 0x7F then asciiLetter r else U.isLetter r

/-- Model of `unicode.IsDigit`: ASCII is decided directly, the rest by table. -/
def unicodeIsDigit (U : UnicodeTables) (r : Char) : Bool :=
  if r.toNat ≤ 0x7F then asciiDigit r else U.isDigit r

/-- Model of `unicode.ToTitle`: ASCII lower-case letters are shifted to upper
case, other ASCII is unchanged, the rest is mapped by table. -/
def unicodeToTitle (U : UnicodeTables) (r : Char) : Char :=
  if r.toNat ≤ 0x7F then
    if inRange 'a' 'z' r then Char.ofNat (r.toNat - 32) else r
  else U.toTitle r

/-! ## Package `strings` -/

/-- Model of `strings.HasSuffix`. -/
def hasSuffix (s suffix : Str) : Bool :=
  suffix.isSuffixOf s

/-- Model of `strings.Contains`: `substr` occurs at some position of `s`. -/
def stringsContains (s substr : Str) : Bool :=
  s.tails.any (fun t => substr.isPrefixOf t)

/-- Model of `isSeparator` of package `strings` (used by `strings.Title`). -/
def isSeparator (U : UnicodeTables) (r : Char) : Bool :=
  if r.toNat ≤ 0x7F then
    if inRange '0' '9' r then false
    else if inRange 'a' 'z' r then false
    else if inRange 'A' 'Z' r then false
    else if r = '_' then false
    else true
  else if unicodeIsLetter U r || unicodeIsDigit U r then false
  else U.isSpace r

/-- The loop of `strings.Title`: `prev` is the previously seen rune. -/
def titleFrom (U : UnicodeTables) : Char → Str → Str
  | _, [] => []
  | prev, r :: s =>
    (if isSeparator U prev then unicodeToTitle U r else r) :: titleFrom U r s

/-- Model of `strings.Title`: every rune that begins a word is title-cased. -/
def stringsTitle (U : UnicodeTables) (s : Str) : Str :=
  titleFrom U ' ' s

/-- Model of `(*strings.Replacer).Replace` for a replacer all of whose old
strings are single bytes: every byte that has an entry is replaced by the
string of its first entry, every other byte is kept. -/
def replacerReplace (oldnew : List (Char × Str)) (s : Str) : Str :=
  s.flatMap (fun c => match oldnew.lookup c with
    | some n => n
    | none => [c])

/-- The scan of `strings.Replace` for a non-empty `old`: `limit` is the number
of replacements still allowed (`none`: no limit) and `skip` the number of
runes of the current match still to be passed over. -/
def replaceScan (old new : Str) : Option Nat → Nat → Str → Str
  | _, _, [] => []
  | limit, skip + 1, _ :: s => replaceScan old new limit skip s
  | limit, 0, c :: s =>
    if limit ≠ some 0 ∧ old.isPrefixOf (c :: s) then
      new ++ replaceScan old new (limit.map (fun k => k - 1)) (old.length - 1) s
    else c :: replaceScan old new limit 0 s

/-- The scan of `strings.Replace` for an empty `old`, after the insertion at the
start of the string: `new` is inserted after each rune while allowed. -/
def replaceEmptyScan (new : Str) : Option Nat → Str → Str
  | _, [] => []
  | limit, c :: s =>
    if limit = some 0 then c :: s
    else c :: (new ++ replaceEmptyScan new (limit.map (fun k => k - 1)) s)

/-- Model of `strings.Replace(s, old, new, n)`: the first `n` non-overlapping
instances of `old` are replaced by `new`, all of them when `n < 0`. -/
def stringsReplace (s old new : Str) (n : Int) : Str :=
  if old = new ∨ n = 0 then s
  else
    let limit : Option Nat := if n < 0 then none else some n.toNat
    if old = [] then new ++ replaceEmptyScan new (limit.map (fun k => k - 1)) s
    else replaceScan old new limit 0 s

/-! ## Package `path/filepath` (Unix) -/

/-- The last path element, as seen from the end: the runes after the last
slash, reversed. -/
def lastElementRev (path : Str) : Str :=
  path.reverse.takeWhile (fun c => c ≠ '/')

/-- Model of `filepath.Base`. -/
def filepathBase (path : Str) : Str :=
  if path = [] then ['.']
  else
    let stripped := (path.reverse.dropWhile (fun c => c = '/')).reverse
    let last := (lastElementRev stripped).reverse
    if last = [] then ['/'] else last

/-- Model of `filepath.Ext`: the suffix beginning at the final dot of the final
element of the path, empty if there is no dot. -/
def filepathExt (path : Str) : Str :=
  let last := lastElementRev path
  if last.contains '.' then (last.takeWhile (fun c => c ≠ '.') ++ ['.']).reverse
  else []

/-! ## The generator: names -/

/-- The topic allow-list `supportedSpecNames`. -/
def supportedSpecNames : List Str :=
  ["comments".toList, "delimiters".toList, "interpolation".toList,
   "inverted".toList, "sections".toList]

/-- Embedding of `isSupportedSpec`. -/
def isSupportedSpec (path : Str) : Bool :=
  supportedSpecNames.any (fun specName => stringsContains path specName)

/-- The replacer `r` of `main`:
`strings.NewReplacer(" ", "", "-", "", "(", "", ")", "")`. -/
def r : List (Char × Str) :=
  [(' ', []), ('-', []), ('(', []), (')', [])]

/-- The name of the routine emitted by the `testSpec` closure:
`"Test"+strings.Title(scope)+r.Replace(test.Name)`. -/
def routineName (U : UnicodeTables) (scope name : Str) : Str :=
  "Test".toList ++ stringsTitle U scope ++ replacerReplace r name

/-- The scope computed by `generateTests`: the base name minus its extension. -/
def scopeOf (pathName : Str) : Str :=
  let base := filepathBase pathName
  let ext := filepathExt base
  base.take (base.length - ext.length)

/-- ASCII-only tables: no letter, digit, space or printable rune outside the
ranges decided directly, and an identity title map. -/
def asciiTables : UnicodeTables :=
  { isLetter := fun _ => false
    isDigit := fun _ => false
    isSpace := fun _ => false
    toTitle := fun c => c
    isPrint := fun _ => false }

/-! ## Values of type `interface{}` and their `%#v` form -/

/-- A `float64`, by its IEEE 754 bit pattern. -/
structure Float64 where
  bits : Nat
deriving DecidableEq, Repr

/-- A value of Go type `interface{}`, for the dynamic types that matter here:
the untyped nil, `bool`, `int`, `float64`, `string`, `[]interface{}` and
`map[string]interface{}`.  Slices and maps are non-nil, as `json.Unmarshal`
makes them; a map is given by its entries in the order in which `fmt` prints
them. -/
inductive GoValue where
  | nil : GoValue
  | bool (b : Bool) : GoValue
  | int (n : Int) : GoValue
  | float64 (x : Float64) : GoValue
  | string (s : Str) : GoValue
  | slice (xs : List GoValue) : GoValue
  | map (kvs : List (Str × GoValue)) : GoValue

mutual
/-- The values `json.Unmarshal` stores into an `interface{}`: nil, `bool`,
`float64`, `string`, `[]interface{}` and `map[string]interface{}` of such. -/
def GoValue.isJSON : GoValue → Bool
  | .nil => true
  | .bool _ => true
  | .int _ => false
  | .float64 _ => true
  | .string _ => true
  | .slice xs => GoValue.allJSON xs
  | .map kvs => GoValue.allMembersJSON kvs
/-- Every element is a decoded JSON value. -/
def GoValue.allJSON : List GoValue → Bool
  | [] => true
  | x :: xs => GoValue.isJSON x && GoValue.allJSON xs
/-- Every member value is a decoded JSON value. -/
def GoValue.allMembersJSON : List (Str × GoValue) → Bool
  | [] => true
  | (_, v) :: kvs => GoValue.isJSON v && GoValue.allMembersJSON kvs
end

/-- The table `lowerhex` of package `strconv`. -/
def lowerhex (n : Nat) : Char :=
  "0123456789abcdef".toList.getD n '0'

/-- Model of `strconv.IsPrint`: Latin-1 is decided directly, the rest by table. -/
def strconvIsPrint (U : UnicodeTables) (c : Char) : Bool :=
  if c.toNat ≤ 0xFF then
    if 0x20 ≤ c.toNat ∧ c.toNat ≤ 0x7E then true
    else if 0xA1 ≤ c.toNat ∧ c.toNat ≤ 0xFF then decide (c.toNat ≠ 0xAD)
    else false
  else U.isPrint c

/-- Model of `appendEscapedRune` of package `strconv`, for the double quote
and neither `ASCIIonly` nor `graphicOnly`. -/
def appendEscapedRune (U : UnicodeTables) (c : Char) : Str :=
  if c = dq ∨ c = bs then [bs, c]
  else if strconvIsPrint U c then [c]
  else if c.toNat = 7 then [bs, 'a']
  else if c.toNat = 8 then [bs, 'b']
  else if c.toNat = 12 then [bs, 'f']
  else if c.toNat = 10 then [bs, 'n']
  else if c.toNat = 13 then [bs, 'r']
  else if c.toNat = 9 then [bs, 't']
  else if c.toNat = 11 then [bs, 'v']
  else if c.toNat < 0x20 ∨ c.toNat = 0x7F then
    [bs, 'x', lowerhex (c.toNat / 16), lowerhex (c.toNat % 16)]
  else if c.toNat < 0x10000 then
    [bs, 'u', lowerhex (c.toNat / 4096 % 16), lowerhex (c.toNat / 256 % 16),
      lowerhex (c.toNat / 16 % 16), lowerhex (c.toNat % 16)]
  else
    [bs, 'U', lowerhex (c.toNat / 268435456 % 16), lowerhex (c.toNat / 16777216 % 16),
      lowerhex (c.toNat / 1048576 % 16), lowerhex (c.toNat / 65536 % 16),
      lowerhex (c.toNat / 4096 % 16), lowerhex (c.toNat / 256 % 16),
      lowerhex (c.toNat / 16 % 16), lowerhex (c.toNat % 16)]

/-- The escaped runes of a string, without the surrounding quotes. -/
def quoteBody (U : UnicodeTables) (s : Str) : Str :=
  s.flatMap (appendEscapedRune U)

/-- Model of `strconv.Quote`, which is what `%#v` prints for a `string`. -/
def strconvQuote (U : UnicodeTables) (s : Str) : Str :=
  dq :: (quoteBody U s ++ [dq])

/-- What `%#v` prints for an `int`: its decimal form. -/
def fmtInt (n : Int) : Str :=
  match n with
  | Int.ofNat k => Nat.toDigits 10 k
  | Int.negSucc k => '-' :: Nat.toDigits 10 (k + 1)

mutual
/-- Model of `(*pp).printValue` under `%#v` for a value held in an
`interface{}` element; `formatFloat` is the `%g` formatter of `float64`. -/
def printValue (U : UnicodeTables) (formatFloat : Float64 → Str) : GoValue → Str
  | .nil => "interface \x7b\x7d(nil)".toList
  | .bool b => if b then "true".toList else "false".toList
  | .int n => fmtInt n
  | .float64 x => formatFloat x
  | .string s => strconvQuote U s
  | .slice xs => "[]interface \x7b\x7d\x7b".toList ++ printElems U formatFloat xs ++ "\x7d".toList
  | .map kvs =>
    "map[string]interface \x7b\x7d\x7b".toList ++ printMembers U formatFloat kvs ++ "\x7d".toList
/-- The elements of a slice, separated by a comma and a space. -/
def printElems (U : UnicodeTables) (formatFloat : Float64 → Str) : List GoValue → Str
  | [] => []
  | [x] => printValue U formatFloat x
  | x :: y :: xs =>
    printValue U formatFloat x ++ ", ".toList ++ printElems U formatFloat (y :: xs)
/-- The entries of a map, as `key:value`, separated by a comma and a space. -/
def printMembers (U : UnicodeTables) (formatFloat : Float64 → Str) :
    List (Str × GoValue) → Str
  | [] => []
  | [(k, v)] => strconvQuote U k ++ ':' :: printValue U formatFloat v
  | (k, v) :: y :: kvs =>
    strconvQuote U k ++ ':' :: printValue U formatFloat v ++ ", ".toList ++
      printMembers U formatFloat (y :: kvs)
end

/-- Model of `%#v` applied to an operand of type `interface{}` (`printArg`):
a nil operand prints as `<nil>`, any other by `printValue`. -/
def fmtSharpV (U : UnicodeTables) (formatFloat : Float64 → Str) : GoValue → Str
  | .nil => "<nil>".toList
  | v => printValue U formatFloat v

/-! ## The generator: emission -/

/-- Embedding of `JSONSpecTest`.  `Partials` is nil (`none`) or a map, given by
its entries in the order in which the `range` loop visits them. -/
structure JSONSpecTest where
  Name : Str
  Data : GoValue
  Expected : Str
  Template : Str
  Description : Str
  Partials : Option (List (Str × Str))

/-- Embedding of `JSONSpecDoc`. -/
structure JSONSpecDoc where
  Tests : List JSONSpecTest

/-- The two lines emitted for one entry of `test.Partials`. -/
def partialLines (U : UnicodeTables) (kv : Str × Str) : Str :=
  let name := kv.1 ++ ".mustache".toList
  "\tgeneratePartial(".toList ++ strconvQuote U name ++ ", ".toList ++ strconvQuote U kv.2 ++
    ")\n".toList ++ "\tdefer os.Remove(".toList ++ strconvQuote U name ++ ")\n".toList

/-- The text the `testSpec` closure appends to the buffer for one case. -/
def testSpecText (U : UnicodeTables) (formatFloat : Float64 → Str) (scope : Str)
    (test : JSONSpecTest) : Str :=
  "func ".toList ++ routineName U scope test.Name ++ "(t *testing.T) \x7b\n".toList ++
    (match test.Partials with
      | none => []
      | some kvs => kvs.foldl (fun acc kv => acc ++ partialLines U kv) []) ++
    "testSpec(t,\n".toList ++
    (strconvQuote U test.Template ++ ",\n".toList ++ strconvQuote U test.Expected ++
      ",\n".toList ++ fmtSharpV U formatFloat test.Data) ++
    ")\n\t\t\x7d\n\n".toList

/-- Embedding of the `testSpec` closure of `main`: the buffer after the call. -/
def testSpec (U : UnicodeTables) (formatFloat : Float64 → Str) (buf scope : Str)
    (test : JSONSpecTest) : Str :=
  buf ++ testSpecText U formatFloat scope test

/-- The raw string literal that `writeHeader` prints, line by line. -/
def headerLines : List String := ["import (\n",
   "\t\x22os\x22\n",
   "\t\x22strings\x22\n",
   "\t\x22testing\x22\n",
   ")\n",
   "\n",
   "func convertHTMLCharsToExpectedFormat(s string) string \x7b\n",
   "\treturn strings.Replace(s, \x22&#34;\x22, \x22&quot;\x22, -1)\n",
   "\x7d\n",
   "\n",
   "func generatePartial(name string, content string) \x7b\n",
   "\tfo, err := os.Create(name)\n",
   "\tif err != nil \x7b\n",
   "\t\tpanic(err)\n",
   "\t\x7d\n",
   "\tdefer func() \x7b\n",
   "\t\tif err := fo.Close(); err != nil \x7b\n",
   "\t\t\tpanic(err)\n",
   "\t\t\x7d\n",
   "\t\x7d()\n",
   "\tif _, err := fo.Write([]byte(content)); err != nil \x7b\n",
   "\t\tpanic(err)\n",
   "\t\x7d\n",
   "\x7d\n",
   "\n",
   "func testSpec(t *testing.T,\n",
   "\t\ttemplate string,\n",
   "\t\texpected string,\n",
   "\t\tcontext interface\x7b\x7d) \x7b\n",
   "\t\toutput := convertHTMLCharsToExpectedFormat(Render(template, context))\n",
   "\t\tif output != expected \x7b\n",
   "\t\t      t.Errorf(\x22%q\x5cnexpected: %q\x5cnbut got:  %q\x22,\n",
   "\t\t      \ttemplate, expected, output)\n",
   "\t\t\x7d\n",
   "\x7d\n",
   "\n"]

/-- Embedding of `writeHeader`, on an empty buffer: `filename` is the value of
the `-output` flag. -/
def writeHeader (filename : Str) : Str :=
  "\n".toList ++
    ("// generated by go run gen.go -output ".toList ++ filename ++ "; DO NOT EDIT\n".toList) ++
    "\n".toList ++ "package mustache\n".toList ++ "\n".toList ++ "\n".toList ++
    ((headerLines.map String.toList).flatten ++ "\n".toList)

/-! ## The generator: the run -/

/-- The environment of a run: library tables, the value of the `-output` flag,
and the outcome of the file system, JSON and formatting calls (`none` stands
for a non-nil `error`). -/
structure Env where
  U : UnicodeTables
  formatFloat : Float64 → Str
  filename : Str
  readFile : Str → Option Str
  unmarshal : Str → Option JSONSpecDoc
  formatSource : Str → Option Str
  writeFile : Str → Str → Bool

/-- One call of the walk function by `filepath.Walk`: the path visited and
whether the walk reports an error for it (the `err` argument is non-nil). -/
structure WalkEntry where
  path : Str
  err : Bool

/-- The loop over `jsonDocSpec.Tests` in `generateTests`. -/
def emitTests (env : Env) (scope : Str) : Str → List JSONSpecTest → Str
  | buf, [] => buf
  | buf, test :: tests =>
    emitTests env scope (testSpec env.U env.formatFloat buf scope test) tests

/-- Embedding of the `generateTests` closure: the buffer after the call, or
`none` when `log.Fatal` ends the process. -/
def generateTests (env : Env) (buf pathName : Str) : Option Str :=
  match env.readFile pathName with
  | none => none
  | some data =>
    match env.unmarshal data with
    | none => none
    | some jsonDocSpec => some (emitTests env (scopeOf pathName) buf jsonDocSpec.Tests)

/-- Embedding of the function literal passed to `filepath.Walk`.  Its `info` and
`err` arguments are not used, and it returns nil whenever it returns. -/
def walkFn (env : Env) (buf : Str) (entry : WalkEntry) : Option Str :=
  if !hasSuffix entry.path ".json".toList then some buf
  else if !isSupportedSpec entry.path then some buf
  else generateTests env buf entry.path

/-- Embedding of `filepath.Walk` with `walkFn`: as `walkFn` returns nil, the
walk goes on to its last entry, unless the process ends. -/
def walk (env : Env) : Str → List WalkEntry → Option Str
  | buf, [] => some buf
  | buf, entry :: entries =>
    match walkFn env buf entry with
    | none => none
    | some buf1 => walk env buf1 entries

/-- How the process ends. -/
inductive Exit where
  | ok : Exit
  | fatal : Exit
deriving DecidableEq, Repr

/-- The observable result of a run: the exit, and the data `ioutil.WriteFile`
was called with on the output path, if it was called at all. -/
structure Result where
  exit : Exit
  written : Option Str
deriving DecidableEq, Repr

/-- Embedding of `main`, for the calls `filepath.Walk` makes to the walk
function in this run. -/
def main (env : Env) (entries : List WalkEntry) : Result :=
  match walk env (writeHeader env.filename) entries with
  | none => { exit := Exit.fatal, written := none }
  | some buf =>
    match env.formatSource buf with
    | none => { exit := Exit.fatal, written := none }
    | some data =>
      if env.writeFile env.filename data then { exit := Exit.ok, written := some data }
      else { exit := Exit.fatal, written := some data }

/-! ## The emitted support code -/

/-- Embedding of the emitted `convertHTMLCharsToExpectedFormat`. -/
def convertHTMLCharsToExpectedFormat (s : Str) : Str :=
  stringsReplace s "&#34;".toList "&quot;".toList (-1)

/-- Embedding of the emitted `testSpec`: true when `t.Errorf` is called, that
is when the normalised output of the renderer differs from `expected`. -/
def emittedTestSpecFails (Render : Str → GoValue → Str) (template expected : Str)
    (context : GoValue) : Bool :=
  let output := convertHTMLCharsToExpectedFormat (Render template context)
  decide (output ≠ expected)

/-! ## Notions used to state the properties -/

/-- The numeric character reference that the emitted normaliser rewrites. -/
def numericQuote : Str := "&#34;".toList

/-- The named entity that the emitted normaliser produces. -/
def namedQuote : Str := "&quot;".toList

/-- The relation "`r` is obtained from `e` by replacing some of the occurrences
of the named entity by the numeric reference": runes are copied, and at an
occurrence of the named entity the numeric reference may be written instead. -/
inductive SomeQuotesNumeric : Str → Str → Prop where
  | done : SomeQuotesNumeric [] []
  | keep (c : Char) {e r : Str} : SomeQuotesNumeric e r → SomeQuotesNumeric (c :: e) (c :: r)
  | swap {e r : Str} : SomeQuotesNumeric e r →
      SomeQuotesNumeric (namedQuote ++ e) (numericQuote ++ r)

/-- Spec-side: the name with every space, hyphen and parenthesis deleted. -/
def deleteNameChars (name : Str) : Str :=
  name.filter (fun c => c ≠ ' ' ∧ c ≠ '-' ∧ c ≠ '(' ∧ c ≠ ')')

/-- Spec-side: the string with its first rune title-cased. -/
def capitalizeFirst (U : UnicodeTables) : Str → Str
  | [] => []
  | c :: s => unicodeToTitle U c :: s

/-- Spec-side: a Go identifier is a letter or underscore followed by letters,
digits and underscores. -/
def isGoIdentifier (U : UnicodeTables) : Str → Bool
  | [] => false
  | c :: s =>
    (unicodeIsLetter U c || decide (c = '_')) &&
      s.all (fun x => unicodeIsLetter U x || unicodeIsDigit U x || decide (x = '_'))

/-- Title-casing a letter or digit outside ASCII yields a letter or a digit: a
property of the Unicode tables. -/
def TitleKeepsAlnum (U : UnicodeTables) : Prop :=
  ∀ c : Char, 0x7F < c.toNat → (U.isLetter c = true ∨ U.isDigit c = true) →
    (unicodeIsLetter U (U.toTitle c) = true ∨ unicodeIsDigit U (U.toTitle c) = true)



/-- Spec-side: a walked file is retained when its path ends in `.json` and
contains at least one of the five topic strings. -/
def Retained (path : Str) : Prop :=
  ".json".toList <:+ path ∧
    ∃ topic ∈ ["comments".toList, "delimiters".toList, "interpolation".toList,
      "inverted".toList, "sections".toList], topic <:+: path

instance (path : Str) : Decidable (Retained path) := by
  unfold Retained
  infer_instance

/-- The document a path reads and deserializes to, `none` when either step
reports an error. -/
def docOf (env : Env) (path : Str) : Option JSONSpecDoc :=
  (env.readFile path).bind env.unmarshal

/-- The cases of the document at a path, none when it has no document. -/
def casesOf (env : Env) (path : Str) : List JSONSpecTest :=
  match docOf env path with
  | some doc => doc.Tests
  | none => []

/-- Spec-side: the routines of a run, one per case of every retained file, in
walk order and then document order. -/
def expectedRoutines (env : Env) (entries : List WalkEntry) : List Str :=
  (entries.filter (fun e => decide (Retained e.path))).flatMap (fun e =>
    (casesOf env e.path).map (testSpecText env.U env.formatFloat (scopeOf e.path)))

/-- A sample case: the one of the specification's sample scenario. -/
def sampleTest : JSONSpecTest :=
  { Name := "Basic Interpolation".toList
    Data := GoValue.map [("subject".toList, GoValue.string "world".toList)]
    Expected := "Hello, world!".toList
    Template := "Hello, \x7b\x7bsubject\x7d\x7d!".toList
    Description := []
    Partials := none }

/-- A second sample case, with a partial and a name that holds a newline. -/
def samplePartialTest : JSONSpecTest :=
  { Name := "Partial (stand-alone)\nfunc Test".toList
    Data := GoValue.nil
    Expected := "a\nfunc Test".toList
    Template := "\x7b\x7b>a\x7d\x7d".toList
    Description := []
    Partials := some [("a".toList, "X\nfunc Test".toList)] }

/-- A sample environment: one readable, well-formed document of two cases at
`ext/spec/specs/interpolation.json`, every other path unreadable; formatting
returns its input and writing succeeds. -/
def sampleEnv : Env :=
  { U := asciiTables
    formatFloat := fun _ => ['0']
    filename := "mustache_spec_test.go".toList
    readFile := fun p =>
      if p = "ext/spec/specs/interpolation.json".toList then some "doc".toList else none
    unmarshal := fun d =>
      if d = "doc".toList then some { Tests := [sampleTest, samplePartialTest] } else none
    formatSource := fun s => some s
    writeFile := fun _ _ => true }

/-- The text that opens the declaration of a test routine. -/
def routineOpening : Str := "func Test".toList

/-- The number of lines of a text, its first line left aside, that begin with
`func Test`: the newlines that `func Test` follows. -/
def countLaterRoutineLines : Str → Nat
  | [] => 0
  | c :: s =>
    (if c = '\n' ∧ routineOpening.isPrefixOf s = true then 1 else 0) + countLaterRoutineLines s

/-- Spec-side: the number of test routines declared in a text, that is the
number of its lines that begin with `func Test`.  A line begins at the start
of the text and after every newline. -/
def countTestRoutines (text : Str) : Nat :=
  (if routineOpening.isPrefixOf text = true then 1 else 0) + countLaterRoutineLines text

/-- Spec-side: the text is one complete test routine: the declaration of a
function whose name starts with `Test`, with the parameter of a test, a body
that calls the assertion helper `testSpec`, and its closing brace. -/
def IsTestRoutine (routine : Str) : Prop :=
  ∃ name body : Str,
    routine = "func ".toList ++ name ++ "(t *testing.T) \x7b\n".toList ++ body ++
      "\x7d\n\n".toList ∧
    "Test".toList <+: name ∧ "testSpec(t,\n".toList <:+: body

/-- Title-casing a rune outside ASCII yields a rune outside ASCII or an ASCII
upper-case letter: a property of the Unicode tables. -/
def TitleLeavesAscii (U : UnicodeTables) : Prop :=
  ∀ c : Char, 0x7F < c.toNat →
    (0x7F < (U.toTitle c).toNat ∨ inRange 'A' 'Z' (U.toTitle c) = true)

/-- The float formatter writes neither a newline nor a space: a property of
`%g`. -/
def FloatTextPlain (formatFloat : Float64 → Str) : Prop :=
  ∀ (x : Float64) (c : Char), c ∈ formatFloat x → c ≠ '\n' ∧ c ≠ ' '

/-- The header after its first two lines, without its last newline. -/
def headerRest : Str :=
  "\n".toList ++ "package mustache\n".toList ++ "\n".toList ++ "\n".toList ++
    (headerLines.map String.toList).flatten

/-! ## What a Go literal denotes -/

/-- The value of a hexadecimal digit. -/
def hexVal (c : Char) : Option Nat :=
  if inRange '0' '9' c then some (c.toNat - 48)
  else if inRange 'a' 'f' c then some (c.toNat - 87)
  else if inRange 'A' 'F' c then some (c.toNat - 55)
  else none

/-- The value of an octal digit. -/
def octVal (c : Char) : Option Nat :=
  if inRange '0' '7' c then some (c.toNat - 48) else none

/-- The code point with a given number: surrogate halves and numbers above
`0x10FFFF` are not code points. -/
def runeOfNat (n : Nat) : Option Char :=
  if n < 0xD800 ∨ (0xDFFF < n ∧ n < 0x110000) then some (Char.ofNat n) else none

/-- The rune a `\x` or octal escape stands for.  Such an escape denotes a byte;
a byte below `0x80` is a rune, a byte above is not, and is outside this model
of strings. -/
def runeOfByte (n : Nat) : Option Char :=
  if n < 0x80 then some (Char.ofNat n) else none

/-- The rune of a single-character escape of an interpreted string literal. -/
def simpleEscape (e : Char) : Option Char :=
  if e = 'a' then some (Char.ofNat 7)
  else if e = 'b' then some (Char.ofNat 8)
  else if e = 'f' then some (Char.ofNat 12)
  else if e = 'n' then some (Char.ofNat 10)
  else if e = 'r' then some (Char.ofNat 13)
  else if e = 't' then some (Char.ofNat 9)
  else if e = 'v' then some (Char.ofNat 11)
  else if e = bs then some bs
  else if e = dq then some dq
  else none

/-- Puts a rune in front of the decoded part of a result. -/
def consResult (r : Option Char) (p : Option (Str × Str)) : Option (Str × Str) :=
  match r, p with
  | some c, some (s, rest) => some (c :: s, rest)
  | _, _ => none

/-- The state of the scan of an interpreted string literal: between escapes,
just after a backslash, or inside the digits of a numeric escape (`remaining`
digits to read, `acc` the number read so far, `isByte` for `\x` and octal
escapes, which denote a byte). -/
inductive QuoteState where
  | plain : QuoteState
  | escape : QuoteState
  | digits (base remaining acc : Nat) (isByte : Bool) : QuoteState

/-- The value of a digit of a numeric escape. -/
def digitOf (base : Nat) (c : Char) : Option Nat :=
  if base = 16 then hexVal c else octVal c

/-- The scan of an interpreted string literal of Go, from a rune after its
opening quote: the string denoted and the text after the closing quote, `none`
when the text is no string literal. -/
def unquoteScan : QuoteState → Str → Option (Str × Str)
  | _, [] => none
  | .plain, c :: rest =>
    if c = dq then some ([], rest)
    else if c = '\n' then none
    else if c = bs then unquoteScan .escape rest
    else consResult (some c) (unquoteScan .plain rest)
  | .escape, e :: rest =>
    if (simpleEscape e).isSome then consResult (simpleEscape e) (unquoteScan .plain rest)
    else if e = 'x' then unquoteScan (.digits 16 2 0 true) rest
    else if e = 'u' then unquoteScan (.digits 16 4 0 false) rest
    else if e = 'U' then unquoteScan (.digits 16 8 0 false) rest
    else
      match octVal e with
      | some d => unquoteScan (.digits 8 2 d true) rest
      | none => none
  | .digits base remaining acc isByte, c :: rest =>
    match digitOf base c with
    | none => none
    | some d =>
      if remaining ≤ 1 then
        consResult (if isByte then runeOfByte (acc * base + d) else runeOfNat (acc * base + d))
          (unquoteScan .plain rest)
      else unquoteScan (.digits base (remaining - 1) (acc * base + d) isByte) rest

/-- The value of an interpreted string literal of Go, read from just after its
opening quote: the string it denotes and the text after its closing quote. -/
def unquoteBody (s : Str) : Option (Str × Str) :=
  unquoteScan QuoteState.plain s

/-- The string an interpreted string literal denotes (the counterpart of
`strconv.Unquote` for double-quoted literals). -/
def goUnquote (literal : Str) : Option Str :=
  match literal with
  | [] => none
  | c :: body =>
    if c = dq then
      match unquoteBody body with
      | some (s, []) => some s
      | _ => none
    else none

/-- Drops leading white space. -/
def skipSpace (s : Str) : Str :=
  s.dropWhile (fun c => c = ' ' ∨ c = '\t' ∨ c = '\n' ∨ c = '\r')

/-- The text after a given prefix, `none` when the text does not start with it. -/
def afterPrefix : Str → Str → Option Str
  | [], s => some s
  | _ :: _, [] => none
  | p :: ps, c :: s => if p = c then afterPrefix ps s else none

/-- The number written by a list of digits, most significant first. -/
def digitsValue (base : Nat) (digit : Char → Option Nat) : Nat → Str → Option Nat
  | acc, [] => some acc
  | acc, c :: s =>
    match digit c with
    | some d => digitsValue base digit (acc * base + d) s
    | none => none

/-- The runes of a decimal integer or floating-point literal, and of a sign. -/
def isNumberChar (c : Char) : Bool :=
  asciiDigit c || decide (c = '.') || decide (c = 'e') || decide (c = 'E') ||
    decide (c = '+') || decide (c = '-')

/-- The token is written with decimal digits only, after an optional minus
sign: this is how an integer constant is written. -/
def isIntegerToken (token : Str) : Bool :=
  match token with
  | [] => false
  | c :: t =>
    if c = '-' then !t.isEmpty && t.all asciiDigit else (c :: t).all asciiDigit

/-- The magnitude of an integer token; `none` for a token of several digits that
starts with `0`, which is no decimal literal. -/
def integerTokenValue (token : Str) : Option Nat :=
  let digits := if token.head? = some '-' then token.drop 1 else token
  if digits.head? = some '0' ∧ 1 < digits.length then none
  else digitsValue 10 (fun c => if asciiDigit c then some (c.toNat - 48) else none) 0 digits

/-- The text starts with a rune of an identifier. -/
def identifierGoesOn (rest : Str) : Bool :=
  match rest with
  | [] => false
  | c :: _ => asciiLetter c || decide (c = '_')

/-- The value of a number at the head of a text, and the text after it.  The
token is the longest run of number runes.  A token of digits only is an integer
constant, of dynamic type `int` when held in an `interface{}`; any other token
is a floating-point literal, of type `float64`, whose value is given by
`parseFloat`.  `none` when there is no token or an identifier rune follows. -/
def evalNumber (parseFloat : Str → Option Float64) (s : Str) : Option (GoValue × Str) :=
  let token := s.takeWhile isNumberChar
  let rest := s.dropWhile isNumberChar
  if token = [] ∨ identifierGoesOn rest = true then none
  else if isIntegerToken token then
    match integerTokenValue token with
    | some n =>
      some (GoValue.int (if token.head? = some '-' then -(n : Int) else (n : Int)), rest)
    | none => none
  else
    match parseFloat token with
    | some x => some (GoValue.float64 x, rest)
    | none => none

mutual
/-- The value of a Go expression at the head of a text, and the text after it,
for the expressions `%#v` writes: string literals, `true`, `false`, numbers,
`interface {}(nil)`, and composite literals of type `[]interface {}` and
`map[string]interface {}`.  `parseFloat` gives the `float64` a floating-point
literal denotes.  `none` when the text starts with no such expression. -/
def evalExpr (parseFloat : Str → Option Float64) : Nat → Str → Option (GoValue × Str)
  | 0, _ => none
  | fuel + 1, s =>
    match skipSpace s with
    | [] => none
    | c :: body =>
      if c = dq then
        match unquoteBody body with
        | some (v, rest) => some (GoValue.string v, rest)
        | none => none
      else if c = 't' then
        match afterPrefix "rue".toList body with
        | some rest => some (GoValue.bool true, rest)
        | none => none
      else if c = 'f' then
        match afterPrefix "alse".toList body with
        | some rest => some (GoValue.bool false, rest)
        | none => none
      else if c = 'i' then
        match afterPrefix "nterface \x7b\x7d(nil)".toList body with
        | some rest => some (GoValue.nil, rest)
        | none => none
      else if c = '[' then
        match afterPrefix "]interface \x7b\x7d\x7b".toList body with
        | some rest =>
          match evalElems parseFloat fuel rest with
          | some (xs, rest1) => some (GoValue.slice xs, rest1)
          | none => none
        | none => none
      else if c = 'm' then
        match afterPrefix "ap[string]interface \x7b\x7d\x7b".toList body with
        | some rest =>
          match evalMembers parseFloat fuel rest with
          | some (kvs, rest1) => some (GoValue.map kvs, rest1)
          | none => none
        | none => none
      else evalNumber parseFloat (c :: body)
/-- The elements of a composite literal, up to and including its closing brace. -/
def evalElems (parseFloat : Str → Option Float64) : Nat → Str →
    Option (List GoValue × Str)
  | 0, _ => none
  | fuel + 1, s =>
    match skipSpace s with
    | [] => none
    | c :: body =>
      if c = '\x7d' then some ([], body)
      else
        match evalExpr parseFloat fuel (c :: body) with
        | none => none
        | some (v, rest) =>
          match skipSpace rest with
          | [] => none
          | d :: rest1 =>
            if d = ',' then
              match evalElems parseFloat fuel rest1 with
              | some (vs, rest2) => some (v :: vs, rest2)
              | none => none
            else if d = '\x7d' then some ([v], rest1)
            else none
/-- The keyed elements of a map literal, up to and including its closing brace. -/
def evalMembers (parseFloat : Str → Option Float64) : Nat → Str →
    Option (List (Str × GoValue) × Str)
  | 0, _ => none
  | fuel + 1, s =>
    match skipSpace s with
    | [] => none
    | c :: body =>
      if c = '\x7d' then some ([], body)
      else if c = dq then
        match unquoteBody body with
        | none => none
        | some (k, afterKey) =>
          match skipSpace afterKey with
          | [] => none
          | colon :: afterColon =>
            if colon = ':' then
              match evalExpr parseFloat fuel afterColon with
              | none => none
              | some (v, rest) =>
                match skipSpace rest with
                | [] => none
                | d :: rest1 =>
                  if d = ',' then
                    match evalMembers parseFloat fuel rest1 with
                    | some (kvs, rest2) => some ((k, v) :: kvs, rest2)
                    | none => none
                  else if d = '\x7d' then some ([(k, v)], rest1)
                  else none
            else none
      else none
end

mutual
/-- The keys of every map in the value are distinct, as in any Go map (a map
literal with a repeated constant key does not compile). -/
def GoValue.keysDistinct : GoValue → Bool
  | .slice xs => GoValue.allKeysDistinct xs
  | .map kvs => decide ((kvs.map Prod.fst).Nodup) && GoValue.allMemberKeysDistinct kvs
  | _ => true
/-- Every element has distinct keys. -/
def GoValue.allKeysDistinct : List GoValue → Bool
  | [] => true
  | x :: xs => GoValue.keysDistinct x && GoValue.allKeysDistinct xs
/-- Every member value has distinct keys. -/
def GoValue.allMemberKeysDistinct : List (Str × GoValue) → Bool
  | [] => true
  | (_, v) :: kvs => GoValue.keysDistinct v && GoValue.allMemberKeysDistinct kvs
end

/-- The value a Go expression denotes when it stands as an argument of type
`interface{}`; `none` when the text is no expression of the forms of
`evalExpr`. -/
def goEval (parseFloat : Str → Option Float64) (text : Str) : Option GoValue :=
  match evalExpr parseFloat (text.length + 1) text with
  | some (v, rest) => if skipSpace rest = [] ∧ v.keysDistinct = true then some v else none
  | none => none

/-- The formatter writes the `float64` as a floating-point literal (a token of
number runes that is not written with digits only) and the literal denotes
that same `float64`. -/
def printsAsFloatLiteral (formatFloat : Float64 → Str) (parseFloat : Str → Option Float64)
    (x : Float64) : Bool :=
  (formatFloat x).all isNumberChar && !(formatFloat x).isEmpty &&
    !isIntegerToken (formatFloat x) && decide (parseFloat (formatFloat x) = some x)

mutual
/-- The value is a decoded JSON value (no `int`) and every `float64` in it
satisfies `ok`. -/
def GoValue.literalSafe (ok : Float64 → Bool) : GoValue → Bool
  | .int _ => false
  | .float64 x => ok x
  | .slice xs => GoValue.allLiteralSafe ok xs
  | .map kvs => GoValue.allMembersLiteralSafe ok kvs
  | _ => true
/-- Every element is `literalSafe`. -/
def GoValue.allLiteralSafe (ok : Float64 → Bool) : List GoValue → Bool
  | [] => true
  | x :: xs => GoValue.literalSafe ok x && GoValue.allLiteralSafe ok xs
/-- Every member value is `literalSafe`. -/
def GoValue.allMembersLiteralSafe (ok : Float64 → Bool) : List (Str × GoValue) → Bool
  | [] => true
  | (_, v) :: kvs => GoValue.literalSafe ok v && GoValue.allMembersLiteralSafe ok kvs
end



mutual
/-- The fuel `evalExpr` needs to read the `%#v` form of a value back. -/
def GoValue.nodes : GoValue → Nat
  | .slice xs => 1 + GoValue.nodesElems xs
  | .map kvs => 1 + GoValue.nodesMembers kvs
  | _ => 1
/-- The fuel `evalElems` needs for the elements of a slice. -/
def GoValue.nodesElems : List GoValue → Nat
  | [] => 1
  | x :: xs => 1 + GoValue.nodes x + GoValue.nodesElems xs
/-- The fuel `evalMembers` needs for the entries of a map. -/
def GoValue.nodesMembers : List (Str × GoValue) → Nat
  | [] => 1
  | (_, v) :: kvs => 1 + GoValue.nodes v + GoValue.nodesMembers kvs
end

/-- A rune that is not white space. -/
abbrev NotSpace (c : Char) : Prop :=
  c ≠ ' ' ∧ c ≠ '\t' ∧ c ≠ '\n' ∧ c ≠ '\r'

/-- The text after an expression is empty, or goes on with a comma or a closing
brace. -/
abbrev StopsNumber (rest : Str) : Prop :=
  ∀ c t, rest = c :: t → c = ',' ∨ c = '\x7d'

/-- A sample of the `%g` formatter: what Go prints for the `float64` values
1.21, 1e21 and 85 (given by their bit patterns), and `0.5` for any other. -/
def sampleFormatFloat (x : Float64) : Str :=
  if x.bits = 4608128174721765212 then "1.21".toList
  else if x.bits = 4921056587992461136 then "1e+21".toList
  else if x.bits = 4635681760191971328 then "85".toList
  else "0.5".toList

/-- A sample of the value of floating-point literals: the `float64` values of
the literals `1.21`, `1e+21` and `0.5`. -/
def sampleParseFloat (literal : Str) : Option Float64 :=
  if literal = "1.21".toList then some { bits := 4608128174721765212 }
  else if literal = "1e+21".toList then some { bits := 4921056587992461136 }
  else if literal = "0.5".toList then some { bits := 4602678819172646912 }
  else none

/-! # Theorems -/

/-! ## Lemmas on the replacement scan -/

theorem replaceScan_skip (old new : Str) (limit : Option Nat) :
    ∀ (k : Nat) (s : Str),
      replaceScan old new limit k s = replaceScan old new limit 0 (s.drop k) := by
  intro k
  induction k with
  | zero => intro s; simp
  | succ k ih =>
    intro s
    cases s with
    | nil => simp [replaceScan]
    | cons c s => simp [replaceScan, ih s]

theorem convert_eq_scan (s : Str) :
    convertHTMLCharsToExpectedFormat s = replaceScan numericQuote namedQuote none 0 s := by
  have h1 : ¬ ("&#34;".toList = "&quot;".toList ∨ (-1 : Int) = 0) := by decide
  have h2 : ¬ ("&#34;".toList = ([] : Str)) := by decide
  simp only [convertHTMLCharsToExpectedFormat, stringsReplace, numericQuote, namedQuote]
  rw [if_neg h1, if_neg h2]
  simp

theorem convert_nil : convertHTMLCharsToExpectedFormat [] = [] := by
  rw [convert_eq_scan]; rfl

theorem convert_cons_match (c : Char) (s : Str) (h : numericQuote <+: c :: s) :
    convertHTMLCharsToExpectedFormat (c :: s) =
      namedQuote ++ convertHTMLCharsToExpectedFormat (s.drop 4) := by
  have hp : numericQuote.isPrefixOf (c :: s) = true := List.isPrefixOf_iff_prefix.mpr h
  rw [convert_eq_scan, convert_eq_scan]
  simp only [replaceScan, hp]
  simp only [ne_eq, not_false_eq_true, and_self, if_true, Option.map_none', reduceCtorEq]
  rw [replaceScan_skip]
  rfl

theorem convert_cons_nomatch (c : Char) (s : Str) (h : ¬ numericQuote <+: c :: s) :
    convertHTMLCharsToExpectedFormat (c :: s) = c :: convertHTMLCharsToExpectedFormat s := by
  have hp : ¬ numericQuote.isPrefixOf (c :: s) = true := fun hh => h (List.isPrefixOf_iff_prefix.mp hh)
  rw [convert_eq_scan, convert_eq_scan]
  simp only [replaceScan, hp]
  simp

theorem contains_iff (s sub : Str) :
    stringsContains s sub = true ↔ ∃ t, t <:+ s ∧ sub <+: t := by
  simp [stringsContains, List.any_eq_true, List.mem_tails, List.isPrefixOf_iff_prefix]

theorem contains_cons_false (c : Char) (s sub : Str)
    (h : stringsContains (c :: s) sub = false) :
    ¬ sub <+: c :: s ∧ stringsContains s sub = false := by
  constructor
  · intro hp
    have : stringsContains (c :: s) sub = true :=
      (contains_iff _ _).mpr ⟨c :: s, List.suffix_refl _, hp⟩
    rw [h] at this; exact Bool.false_ne_true this
  · by_contra hc
    have hc1 : stringsContains s sub = true := by simpa using hc
    obtain ⟨t, ht, hp⟩ := (contains_iff _ _).mp hc1
    have : stringsContains (c :: s) sub = true :=
      (contains_iff _ _).mpr ⟨t, ht.trans (List.suffix_cons c s), hp⟩
    rw [h] at this; exact Bool.false_ne_true this

/-- A prefix without ampersand of the rewritten text is a prefix of the original. -/
theorem SomeQuotesNumeric.prefix_back {e r : Str} (h : SomeQuotesNumeric e r) :
    ∀ (p : Str), (∀ c ∈ p, c ≠ '&') → p <+: r → p <+: e := by
  induction h with
  | done => intro p _ hp; exact hp
  | keep c _ ih =>
    intro p hamp hp
    cases p with
    | nil => exact List.nil_prefix
    | cons x p =>
      rw [List.cons_prefix_cons] at hp ⊢
      exact ⟨hp.1, ih p (fun c hc => hamp c (List.mem_cons_of_mem _ hc)) hp.2⟩
  | swap _ _ =>
    intro p hamp hp
    cases p with
    | nil => exact List.nil_prefix
    | cons x p =>
      exfalso
      have hx : x = '&' := by
        have := hp
        simp only [numericQuote, String.toList, List.cons_append] at this
        exact (List.cons_prefix_cons.mp this).1
      exact hamp x (List.mem_cons_self _ _) hx

theorem SomeQuotesNumeric.convert_back {e r : Str} (h : SomeQuotesNumeric e r) :
    stringsContains e numericQuote = false → convertHTMLCharsToExpectedFormat r = e := by
  induction h with
  | done => intro _; exact convert_nil
  | @keep c e r hs ih =>
    intro hno
    obtain ⟨hnp, hrest⟩ := contains_cons_false c e numericQuote hno
    have hnr : ¬ numericQuote <+: c :: r := by
      intro hp
      apply hnp
      have hp1 : '&' :: "#34;".toList <+: c :: r := hp
      rw [List.cons_prefix_cons] at hp1
      have := hs.prefix_back "#34;".toList (by decide) hp1.2
      show '&' :: "#34;".toList <+: c :: e
      rw [List.cons_prefix_cons]
      exact ⟨hp1.1, this⟩
    rw [convert_cons_nomatch c r hnr, ih hrest]
  | @swap e r hs ih =>
    intro hno
    have hrest : stringsContains e numericQuote = false := by
      by_contra hc
      have hc1 : stringsContains e numericQuote = true := by simpa using hc
      obtain ⟨t, ht, hp⟩ := (contains_iff _ _).mp hc1
      have : stringsContains (namedQuote ++ e) numericQuote = true :=
        (contains_iff _ _).mpr ⟨t, ht.trans (List.suffix_append _ _), hp⟩
      rw [hno] at this; exact Bool.false_ne_true this
    have hm : numericQuote <+: '&' :: ("#34;".toList ++ r) := by
      show numericQuote <+: numericQuote ++ r
      exact List.prefix_append _ _
    show convertHTMLCharsToExpectedFormat ('&' :: ("#34;".toList ++ r)) = namedQuote ++ e
    rw [convert_cons_match _ _ hm]
    have : List.drop 4 ("#34;".toList ++ r) = r := by simp [String.toList]
    rw [this, ih hrest]

/-- A string without the numeric reference is left unchanged. -/
theorem convert_of_not_contains :
    ∀ (s : Str), stringsContains s numericQuote = false →
      convertHTMLCharsToExpectedFormat s = s := by
  intro s
  induction s with
  | nil => intro _; exact convert_nil
  | cons c s ih =>
    intro h
    obtain ⟨hnp, hrest⟩ := contains_cons_false c s numericQuote h
    rw [convert_cons_nomatch c s hnp, ih hrest]

/-- A prefix without ampersand of the normalised text is a prefix of the input. -/
theorem convert_prefix_back :
    ∀ (p s : Str), (∀ c ∈ p, c ≠ '&') → p <+: convertHTMLCharsToExpectedFormat s → p <+: s := by
  intro p
  induction p with
  | nil => intro s _ _; exact List.nil_prefix
  | cons x p ih =>
    intro s hamp hp
    cases s with
    | nil => rw [convert_nil] at hp; exact hp
    | cons d s =>
      by_cases hm : numericQuote <+: d :: s
      · exfalso
        rw [convert_cons_match d s hm] at hp
        have hx : x = '&' := by
          simp only [namedQuote, String.toList, List.cons_append] at hp
          exact (List.cons_prefix_cons.mp hp).1
        exact hamp x (List.mem_cons_self _ _) hx
      · rw [convert_cons_nomatch d s hm, List.cons_prefix_cons] at hp
        rw [List.cons_prefix_cons]
        exact ⟨hp.1, ih s (fun c hc => hamp c (List.mem_cons_of_mem _ hc)) hp.2⟩

/-- No suffix of the normalised text begins with the numeric reference. -/
theorem convert_no_numeric_aux :
    ∀ (n : Nat) (s : Str), s.length ≤ n →
      ∀ t, t <:+ convertHTMLCharsToExpectedFormat s → ¬ numericQuote <+: t := by
  intro n
  induction n with
  | zero =>
    intro s hs t ht hp
    have : s = [] := List.length_eq_zero.mp (Nat.le_zero.mp hs)
    subst this
    rw [convert_nil] at ht
    have : t = [] := List.suffix_nil.mp ht
    subst this
    simp [numericQuote] at hp
  | succ n ih =>
    intro s hs t ht hp
    cases s with
    | nil =>
      rw [convert_nil] at ht
      have : t = [] := List.suffix_nil.mp ht
      subst this
      simp [numericQuote] at hp
    | cons d s =>
      have hlen : s.length ≤ n := by simpa using hs
      by_cases hm : numericQuote <+: d :: s
      · rw [convert_cons_match d s hm] at ht
        have hdrop : (s.drop 4).length ≤ n := by
          rw [List.length_drop]; omega
        simp only [namedQuote, String.toList, List.cons_append, List.nil_append,
          List.suffix_cons_iff] at ht
        rcases ht with h | h | h | h | h | h | h
        · subst h; simp [numericQuote] at hp
        · subst h; simp [numericQuote] at hp
        · subst h; simp [numericQuote] at hp
        · subst h; simp [numericQuote] at hp
        · subst h; simp [numericQuote] at hp
        · subst h; simp [numericQuote] at hp
        · exact ih (s.drop 4) hdrop t h hp
      · rw [convert_cons_nomatch d s hm, List.suffix_cons_iff] at ht
        rcases ht with h | h
        · subst h
          apply hm
          have hp1 : '&' :: "#34;".toList <+: d :: convertHTMLCharsToExpectedFormat s := hp
          rw [List.cons_prefix_cons] at hp1
          show '&' :: "#34;".toList <+: d :: s
          rw [List.cons_prefix_cons]
          exact ⟨hp1.1, convert_prefix_back _ s (by decide) hp1.2⟩
        · exact ih s hlen t h hp

theorem convert_not_contains (s : Str) :
    stringsContains (convertHTMLCharsToExpectedFormat s) numericQuote = false := by
  by_contra hc
  have hc1 : stringsContains (convertHTMLCharsToExpectedFormat s) numericQuote = true := by
    simpa using hc
  obtain ⟨t, ht, hp⟩ := (contains_iff _ _).mp hc1
  exact convert_no_numeric_aux s.length s (Nat.le_refl _) t ht hp

/-- C9 (escape normalisation, documented direction): for every expected string
`e` without the numeric reference `&#34;`, every rendered output `r` obtained
from `e` by writing `&#34;` for some of its occurrences of `&quot;` is mapped
back to exactly `e` by the emitted normaliser, so the emitted `testSpec` does
not report a failure for it; and `e` itself is left unchanged. -/
theorem escape_normalisation_documented_direction (e : Str)
    (hno : stringsContains e "&#34;".toList = false) :
    (∀ r : Str, SomeQuotesNumeric e r →
      convertHTMLCharsToExpectedFormat r = e ∧
      ∀ (Render : Str → GoValue → Str) (template : Str) (context : GoValue),
        Render template context = r →
          emittedTestSpecFails Render template e context = false) ∧
    convertHTMLCharsToExpectedFormat e = e := by
  refine ⟨fun r hr => ?_, convert_of_not_contains e hno⟩
  have hback : convertHTMLCharsToExpectedFormat r = e := hr.convert_back hno
  refine ⟨hback, fun Render template context hrender => ?_⟩
  simp [emittedTestSpecFails, hrender, hback]

theorem escape_normalisation_documented_direction_witness :
    stringsContains "a&quot;b&quot;".toList "&#34;".toList = false ∧
    convertHTMLCharsToExpectedFormat "a&#34;b&quot;".toList = "a&quot;b&quot;".toList ∧
    emittedTestSpecFails (fun _ _ => "a&#34;b&quot;".toList) "t".toList
      "a&quot;b&quot;".toList GoValue.nil = false :=
  have hr : SomeQuotesNumeric "a&quot;b&quot;".toList "a&#34;b&quot;".toList :=
    .keep 'a' (.swap (.keep 'b' (.keep '&' (.keep 'q' (.keep 'u' (.keep 'o' (.keep 't'
      (.keep ';' .done))))))))
  have h := (escape_normalisation_documented_direction "a&quot;b&quot;".toList
    (by decide)).1 "a&#34;b&quot;".toList hr
  ⟨by decide, h.1, h.2 (fun _ _ => "a&#34;b&quot;".toList) "t".toList GoValue.nil rfl⟩

/-- C10 (escape normalisation, reverse direction): for every rendered output
`s` the normalised output contains no `&#34;`, normalising twice is normalising
once, a text without `&#34;` (so also one with `&quot;`) is returned as it is,
and for an expected string that contains `&#34;` the comparison of the emitted
`testSpec` fails whatever the renderer returns. -/
theorem escape_normalisation_reverse_not_normalised (s : Str) :
    stringsContains (convertHTMLCharsToExpectedFormat s) "&#34;".toList = false ∧
    convertHTMLCharsToExpectedFormat (convertHTMLCharsToExpectedFormat s) =
      convertHTMLCharsToExpectedFormat s ∧
    (stringsContains s "&#34;".toList = false → convertHTMLCharsToExpectedFormat s = s) ∧
    (stringsContains s "&#34;".toList = true →
      ∀ (Render : Str → GoValue → Str) (template : Str) (context : GoValue),
        emittedTestSpecFails Render template s context = true) := by
  refine ⟨convert_not_contains s,
    convert_of_not_contains _ (convert_not_contains s), convert_of_not_contains s, ?_⟩
  intro hs Render template context
  have hne : convertHTMLCharsToExpectedFormat (Render template context) ≠ s := by
    intro heq
    have := convert_not_contains (Render template context)
    rw [heq] at this
    rw [show numericQuote = "&#34;".toList from rfl, hs] at this
    exact Bool.noConfusion this
  simp [emittedTestSpecFails, hne]

theorem escape_normalisation_reverse_not_normalised_witness :
    convertHTMLCharsToExpectedFormat "say &quot;hi&quot;".toList = "say &quot;hi&quot;".toList ∧
    emittedTestSpecFails (fun _ _ => "say &quot;hi&quot;".toList) "t".toList
      "say &#34;hi&#34;".toList GoValue.nil = true :=
  ⟨(escape_normalisation_reverse_not_normalised "say &quot;hi&quot;".toList).2.2.1 (by decide),
   (escape_normalisation_reverse_not_normalised "say &#34;hi&#34;".toList).2.2.2 (by decide)
      (fun _ _ => "say &quot;hi&quot;".toList) "t".toList GoValue.nil⟩

theorem replacerReplace_r (name : Str) : replacerReplace r name = deleteNameChars name := by
  induction name with
  | nil => rfl
  | cons c s ih =>
    have hstep : replacerReplace r (c :: s) =
        (match r.lookup c with | some n => n | none => [c]) ++ replacerReplace r s := by
      simp [replacerReplace, List.flatMap_cons]
    rw [hstep, ih]
    by_cases h1 : c = ' '
    · subst h1; simp [deleteNameChars, r, List.lookup]
    by_cases h2 : c = '-'
    · subst h2; simp [deleteNameChars, r, List.lookup]
    by_cases h3 : c = '('
    · subst h3; simp [deleteNameChars, r, List.lookup]
    by_cases h4 : c = ')'
    · subst h4; simp [deleteNameChars, r, List.lookup]
    have e1 : (c == ' ') = false := by simpa using h1
    have e2 : (c == '-') = false := by simpa using h2
    have e3 : (c == '(') = false := by simpa using h3
    have e4 : (c == ')') = false := by simpa using h4
    simp [deleteNameChars, r, List.lookup, e1, e2, e3, e4, h1, h2, h3, h4]

theorem isSeparator_of_alnum (U : UnicodeTables) (c : Char)
    (h : unicodeIsLetter U c = true ∨ unicodeIsDigit U c = true) : isSeparator U c = false := by
  unfold isSeparator
  by_cases hc : c.toNat ≤ 0x7F
  · simp only [unicodeIsLetter, unicodeIsDigit, hc, if_true, asciiLetter, asciiDigit] at h
    simp only [hc, if_true]
    rcases h with h | h
    · rw [Bool.or_eq_true] at h
      rcases h with h | h <;> simp [h]
    · simp [h]
  · simp only [hc, if_false]
    rcases h with h | h <;> simp [h]

theorem titleFrom_of_no_separator (U : UnicodeTables) :
    ∀ (s : Str) (prev : Char), isSeparator U prev = false →
      (∀ c ∈ s, isSeparator U c = false) → titleFrom U prev s = s := by
  intro s
  induction s with
  | nil => intro _ _ _; rfl
  | cons c s ih =>
    intro prev hprev hall
    simp only [titleFrom, hprev]
    rw [ih c (hall c (List.mem_cons_self _ _)) (fun x hx => hall x (List.mem_cons_of_mem _ hx))]
    simp

theorem stringsTitle_of_word (U : UnicodeTables) (s : Str)
    (hall : ∀ c ∈ s, isSeparator U c = false) : stringsTitle U s = capitalizeFirst U s := by
  cases s with
  | nil => rfl
  | cons c s =>
    have hsp : isSeparator U ' ' = true := by
      simp [isSeparator, inRange]
    simp only [stringsTitle, titleFrom, hsp, if_true, capitalizeFirst]
    rw [titleFrom_of_no_separator U s c (hall c (List.mem_cons_self _ _))
      (fun x hx => hall x (List.mem_cons_of_mem _ hx))]

theorem takeWhile_append_stop {α : Type} (p : α → Bool) (a b : List α) (x : α)
    (ha : ∀ y ∈ a, p y = true) (hx : p x = false) :
    (a ++ x :: b).takeWhile p = a := by
  induction a with
  | nil => simp [List.takeWhile, hx]
  | cons y a ih =>
    have hy := ha y (List.mem_cons_self _ _)
    simp only [List.cons_append, List.takeWhile_cons, hy, if_true]
    rw [ih (fun z hz => ha z (List.mem_cons_of_mem _ hz))]

theorem takeWhile_all {α : Type} (p : α → Bool) (a : List α)
    (ha : ∀ y ∈ a, p y = true) : a.takeWhile p = a := by
  induction a with
  | nil => rfl
  | cons y a ih =>
    have hy := ha y (List.mem_cons_self _ _)
    simp only [List.takeWhile_cons, hy, if_true]
    rw [ih (fun z hz => ha z (List.mem_cons_of_mem _ hz))]

/-- The last element of `dir ++ last`, seen from the end, when `dir` is empty
or has a final slash, and `last` has no slash. -/
theorem lastElementRev_append (dir last : Str)
    (hdir : dir = [] ∨ dir.getLast? = some '/') (hlast : ∀ c ∈ last, c ≠ '/') :
    lastElementRev (dir ++ last) = last.reverse := by
  unfold lastElementRev
  rw [List.reverse_append]
  have hall : ∀ y ∈ last.reverse, (fun c => decide (c ≠ '/')) y = true := by
    intro y hy
    simpa using hlast y (List.mem_reverse.mp hy)
  rcases hdir with h | h
  · subst h
    simpa using takeWhile_all _ _ hall
  · obtain ⟨init, rfl⟩ : ∃ init, dir = init ++ ['/'] := by
      rcases List.eq_nil_or_concat dir with hnil | ⟨init, x, hx⟩
      · subst hnil; simp at h
      · subst hx
        simp at h
        exact ⟨init, by rw [h, List.concat_eq_append]⟩
    rw [List.reverse_append]
    exact takeWhile_append_stop _ _ _ _ hall (by simp)

theorem scopeOf_word (dir word ext : Str)
    (hdir : dir = [] ∨ dir.getLast? = some '/')
    (hword : ∀ c ∈ word, c ≠ '/' ∧ c ≠ '.')
    (hext : ∀ c ∈ ext, c ≠ '.' ∧ c ≠ '/') :
    scopeOf (dir ++ word ++ '.' :: ext) = word := by
  have hlast : ∀ c ∈ word ++ '.' :: ext, c ≠ '/' := by
    intro c hc
    rcases List.mem_append.mp hc with h | h
    · exact (hword c h).1
    · rcases List.mem_cons.mp h with h | h
      · subst h; decide
      · exact (hext c h).2
  have hbase : filepathBase (dir ++ word ++ '.' :: ext) = word ++ '.' :: ext := by
    unfold filepathBase
    have hne : dir ++ word ++ '.' :: ext ≠ [] := by simp
    rw [if_neg hne]
    have hstrip : ((dir ++ word ++ '.' :: ext).reverse.dropWhile (fun c => decide (c = '/'))).reverse
        = dir ++ word ++ '.' :: ext := by
      have : (dir ++ word ++ '.' :: ext).reverse.dropWhile (fun c => decide (c = '/'))
          = (dir ++ word ++ '.' :: ext).reverse := by
        cases ext using List.reverseRecOn with
        | nil => simp [List.dropWhile]
        | append_singleton e x _ =>
          have hx : x ≠ '/' := (hext x (by simp)).2
          simp [List.dropWhile, hx]
      rw [this, List.reverse_reverse]
    simp only [hstrip]
    rw [List.append_assoc, lastElementRev_append dir (word ++ '.' :: ext) hdir hlast]
    simp
  have hextv : filepathExt (word ++ '.' :: ext) = '.' :: ext := by
    unfold filepathExt
    have := lastElementRev_append [] (word ++ '.' :: ext) (Or.inl rfl) hlast
    rw [List.nil_append] at this
    simp only [this]
    have hc : (word ++ '.' :: ext).reverse.contains '.' = true := by simp
    rw [if_pos hc]
    have hrev : (word ++ '.' :: ext).reverse = ext.reverse ++ '.' :: word.reverse := by simp
    rw [hrev, takeWhile_append_stop _ _ _ _ (by
      intro y hy
      simpa using (hext y (List.mem_reverse.mp hy)).1) (by simp)]
    simp
  unfold scopeOf
  simp only [hbase, hextv]
  simp

theorem ofNat_toNat_small (n : Nat) (h : n < 128) : (Char.ofNat n).toNat = n := by
  interval_cases n <;> rfl

theorem unicodeToTitle_alnum (U : UnicodeTables) (hU : TitleKeepsAlnum U) (c : Char)
    (h : unicodeIsLetter U c = true ∨ unicodeIsDigit U c = true) :
    unicodeIsLetter U (unicodeToTitle U c) = true ∨
      unicodeIsDigit U (unicodeToTitle U c) = true := by
  by_cases hc : c.toNat ≤ 0x7F
  · by_cases hl : inRange 'a' 'z' c = true
    · left
      have hr : 97 ≤ c.toNat ∧ c.toNat ≤ 122 := by
        simpa [inRange] using hl
      have hv : (Char.ofNat (c.toNat - 32)).toNat = c.toNat - 32 :=
        ofNat_toNat_small _ (by omega)
      have ht : unicodeToTitle U c = Char.ofNat (c.toNat - 32) := by
        simp only [unicodeToTitle, hc, if_true, hl]
      have h1 : (Char.ofNat (c.toNat - 32)).toNat ≤ 0x7F := by omega
      have h2 : 65 ≤ (Char.ofNat (c.toNat - 32)).toNat := by omega
      have h3 : (Char.ofNat (c.toNat - 32)).toNat ≤ 90 := by omega
      rw [ht]
      simp only [unicodeIsLetter, h1, if_true, asciiLetter, inRange]
      simp [h2, h3]
    · simp only [unicodeToTitle, hc, if_true, hl]
      exact h
  · have hgt : 0x7F < c.toNat := by omega
    simp only [unicodeToTitle, hc, if_false]
    apply hU c hgt
    simpa [unicodeIsLetter, unicodeIsDigit, hc] using h

theorem not_alnum_of_eq (U : UnicodeTables) (c x : Char) (hx : x.toNat ≤ 0x7F)
    (hxl : asciiLetter x = false) (hxd : asciiDigit x = false)
    (h : unicodeIsLetter U c = true ∨ unicodeIsDigit U c = true) : c ≠ x := by
  intro hcx
  subst hcx
  simp [unicodeIsLetter, unicodeIsDigit, hx, hxl, hxd] at h

theorem mem_deleteNameChars (name : Str) (c : Char) (h : c ∈ deleteNameChars name) :
    c ∈ name ∧ c ≠ ' ' ∧ c ≠ '-' ∧ c ≠ '(' ∧ c ≠ ')' := by
  simpa [deleteNameChars, List.mem_filter] using h

/-- C2 (routine naming): for a spec path whose base name is a word of letters
and digits followed by a dot and an extension, and every case name, the emitted
routine is named `Test`, then the word with its first rune title-cased, then
the case name with every space, hyphen and parenthesis deleted and every other
rune kept in order; the emitted text of the case opens with that name. -/
theorem routine_naming (U : UnicodeTables) (dir word ext name : Str)
    (hdir : dir = [] ∨ dir.getLast? = some '/')
    (hword : ∀ c ∈ word, unicodeIsLetter U c = true ∨ unicodeIsDigit U c = true)
    (hext : ∀ c ∈ ext, c ≠ '.' ∧ c ≠ '/') :
    routineName U (scopeOf (dir ++ word ++ '.' :: ext)) name =
      "Test".toList ++ capitalizeFirst U word ++ deleteNameChars name ∧
    ∀ (formatFloat : Float64 → Str) (test : JSONSpecTest), test.Name = name →
      "func ".toList ++ ("Test".toList ++ capitalizeFirst U word ++ deleteNameChars name) ++
        "(t *testing.T) \x7b\n".toList <+:
        testSpecText U formatFloat (scopeOf (dir ++ word ++ '.' :: ext)) test := by
  have hscope : scopeOf (dir ++ word ++ '.' :: ext) = word :=
    scopeOf_word dir word ext hdir
      (fun c hc => ⟨not_alnum_of_eq U c '/' (by decide) (by decide) (by decide) (hword c hc),
        not_alnum_of_eq U c '.' (by decide) (by decide) (by decide) (hword c hc)⟩) hext
  have hname : routineName U word name =
      "Test".toList ++ capitalizeFirst U word ++ deleteNameChars name := by
    unfold routineName
    rw [replacerReplace_r,
      stringsTitle_of_word U word (fun c hc => isSeparator_of_alnum U c (hword c hc))]
  rw [hscope]
  refine ⟨hname, fun formatFloat test htest => ?_⟩
  unfold testSpecText
  rw [htest, hname]
  simp only [List.append_assoc]
  exact (List.prefix_append_right_inj _).mpr
    ((List.prefix_append_right_inj _).mpr ((List.prefix_append_right_inj _).mpr
      ((List.prefix_append_right_inj _).mpr (List.prefix_append _ _))))

theorem routine_naming_witness :
    routineName asciiTables (scopeOf "interpolation.json".toList) "Basic Interpolation".toList =
      "TestInterpolationBasicInterpolation".toList :=
  (routine_naming asciiTables [] "interpolation".toList "json".toList
    "Basic Interpolation".toList (Or.inl rfl) (by decide) (by decide)).1.trans (by decide)

/-- C3 (name safety): when the Unicode title map keeps letters and digits among
letters and digits, for every scope of letters and digits and every case name of
letters, digits, spaces, hyphens and parentheses (the empty name and names that
start with a digit included), the emitted routine name is non-empty, starts
with a letter and holds only letters, digits and underscores. -/
theorem name_safety (U : UnicodeTables) (hU : TitleKeepsAlnum U) (scope name : Str)
    (hscope : ∀ c ∈ scope, unicodeIsLetter U c = true ∨ unicodeIsDigit U c = true)
    (hname : ∀ c ∈ name, unicodeIsLetter U c = true ∨ unicodeIsDigit U c = true ∨
      c = ' ' ∨ c = '-' ∨ c = '(' ∨ c = ')') :
    routineName U scope name ≠ [] ∧
    (∃ c rest, routineName U scope name = c :: rest ∧ unicodeIsLetter U c = true) ∧
    (∀ c ∈ routineName U scope name,
      unicodeIsLetter U c = true ∨ unicodeIsDigit U c = true ∨ c = '_') ∧
    isGoIdentifier U (routineName U scope name) = true := by
  have hshape : routineName U scope name =
      'T' :: ("est".toList ++ capitalizeFirst U scope ++ deleteNameChars name) := by
    unfold routineName
    rw [replacerReplace_r,
      stringsTitle_of_word U scope (fun c hc => isSeparator_of_alnum U c (hscope c hc))]
    rfl
  have hrest : ∀ c ∈ "est".toList ++ capitalizeFirst U scope ++ deleteNameChars name,
      unicodeIsLetter U c = true ∨ unicodeIsDigit U c = true := by
    intro c hc
    rcases List.mem_append.mp hc with h | h
    · rcases List.mem_append.mp h with h | h
      · have : c = 'e' ∨ c = 's' ∨ c = 't' := by simpa using h
        rcases this with h | h | h <;> subst h <;> exact Or.inl rfl
      · cases scope with
        | nil => simp [capitalizeFirst] at h
        | cons x xs =>
          rcases List.mem_cons.mp h with h | h
          · subst h
            exact unicodeToTitle_alnum U hU x (hscope x (List.mem_cons_self _ _))
          · exact hscope c (List.mem_cons_of_mem _ h)
    · obtain ⟨hmem, h1, h2, h3, h4⟩ := mem_deleteNameChars name c h
      rcases hname c hmem with h | h | h | h | h | h
      · exact Or.inl h
      · exact Or.inr h
      · exact absurd h h1
      · exact absurd h h2
      · exact absurd h h3
      · exact absurd h h4
  have hT : unicodeIsLetter U 'T' = true := rfl
  rw [hshape]
  refine ⟨List.cons_ne_nil _ _, ⟨'T', _, rfl, hT⟩, ?_, ?_⟩
  · intro c hc
    rcases List.mem_cons.mp hc with h | h
    · subst h; exact Or.inl hT
    · rcases hrest c h with h | h
      · exact Or.inl h
      · exact Or.inr (Or.inl h)
  · simp only [isGoIdentifier, hT, Bool.true_or, Bool.true_and, List.all_eq_true]
    intro c hc
    rcases hrest c hc with h | h <;> simp [h]

theorem asciiTables_titleKeepsAlnum : TitleKeepsAlnum asciiTables := by
  intro c _ h
  simp [asciiTables] at h

theorem name_safety_witness :
    isGoIdentifier asciiTables
      (routineName asciiTables "sections".toList "2 (Deeply-Nested) contexts".toList) = true :=
  (name_safety asciiTables asciiTables_titleKeepsAlnum "sections".toList
    "2 (Deeply-Nested) contexts".toList (by decide) (by decide)).2.2.2

/-- C4 as stated fails: the case name is not capitalised.  A case named
`basic-case` in scope `sections` gives `TestSectionsbasiccase`, not `Test`
followed by `SectionsBasiccase`; and scope `my-sections` has two letters
capitalised, not only its first. -/
theorem sanitizer_capitalisation_counterexample :
    routineName asciiTables "sections".toList "basic-case".toList =
      "TestSectionsbasiccase".toList ∧
    routineName asciiTables "sections".toList "basic-case".toList ≠
      "Test".toList ++ capitalizeFirst asciiTables "sections".toList ++
        capitalizeFirst asciiTables (deleteNameChars "basic-case".toList) ∧
    "Test".toList ++ capitalizeFirst asciiTables "sections".toList ++
        capitalizeFirst asciiTables (deleteNameChars "basic-case".toList) =
      "TestSectionsBasiccase".toList ∧
    stringsTitle asciiTables "my-sections".toList = "My-Sections".toList ∧
    stringsTitle asciiTables "my-sections".toList ≠
      capitalizeFirst asciiTables "my-sections".toList := by
  decide

/-- C4, amended: the fragment produced from the case name is the name with
spaces, hyphens and parentheses deleted and no change of case; the scope prefix
is `strings.Title` of the scope, which for a scope that is one word (no
separator rune) is the scope with only its first rune title-cased. -/
theorem sanitizer_capitalisation_amended (U : UnicodeTables) (scope name : Str) :
    routineName U scope name =
      "Test".toList ++ stringsTitle U scope ++ deleteNameChars name ∧
    ((∀ c ∈ scope, isSeparator U c = false) →
      stringsTitle U scope = capitalizeFirst U scope) := by
  refine ⟨?_, stringsTitle_of_word U scope⟩
  unfold routineName
  rw [replacerReplace_r]

theorem sanitizer_capitalisation_amended_witness :
    routineName asciiTables "sections".toList "basic-case".toList =
      "Test".toList ++ stringsTitle asciiTables "sections".toList ++
        deleteNameChars "basic-case".toList ∧
    stringsTitle asciiTables "sections".toList = capitalizeFirst asciiTables "sections".toList :=
  ⟨(sanitizer_capitalisation_amended asciiTables "sections".toList "basic-case".toList).1,
   (sanitizer_capitalisation_amended asciiTables "sections".toList "basic-case".toList).2
      (by decide)⟩

/-- C8 as stated fails: two retained spec files with different scopes,
`sections` and `Sections`, give the same routine name for the same case name. -/
theorem scope_namespacing_counterexample :
    hasSuffix "ext/spec/specs/sections.json".toList ".json".toList = true ∧
    isSupportedSpec "ext/spec/specs/sections.json".toList = true ∧
    hasSuffix "ext/spec/specs/sections/Sections.json".toList ".json".toList = true ∧
    isSupportedSpec "ext/spec/specs/sections/Sections.json".toList = true ∧
    scopeOf "ext/spec/specs/sections.json".toList = "sections".toList ∧
    scopeOf "ext/spec/specs/sections/Sections.json".toList = "Sections".toList ∧
    scopeOf "ext/spec/specs/sections.json".toList ≠
      scopeOf "ext/spec/specs/sections/Sections.json".toList ∧
    routineName asciiTables (scopeOf "ext/spec/specs/sections.json".toList) "Truthy".toList =
      routineName asciiTables (scopeOf "ext/spec/specs/sections/Sections.json".toList)
        "Truthy".toList := by
  decide

/-- C8, amended: for every two spec files and every case name that occurs in
both, the two routine names differ exactly when the scopes differ after
`strings.Title`; scopes that only differ in the case of a word-initial letter
give the same name. -/
theorem scope_namespacing_amended (U : UnicodeTables) (path1 path2 name : Str) :
    (stringsTitle U (scopeOf path1) ≠ stringsTitle U (scopeOf path2) →
      routineName U (scopeOf path1) name ≠ routineName U (scopeOf path2) name) ∧
    (stringsTitle U (scopeOf path1) = stringsTitle U (scopeOf path2) →
      routineName U (scopeOf path1) name = routineName U (scopeOf path2) name) := by
  constructor
  · intro hne heq
    apply hne
    unfold routineName at heq
    rw [List.append_assoc, List.append_assoc] at heq
    exact List.append_cancel_right (List.append_cancel_left heq)
  · intro heq
    unfold routineName
    rw [heq]

theorem scope_namespacing_amended_witness :
    routineName asciiTables (scopeOf "ext/spec/specs/sections.json".toList) "Truthy".toList ≠
      routineName asciiTables (scopeOf "ext/spec/specs/inverted.json".toList) "Truthy".toList ∧
    routineName asciiTables (scopeOf "ext/spec/specs/sections.json".toList) "Truthy".toList =
      routineName asciiTables (scopeOf "ext/spec/specs/sections/Sections.json".toList)
        "Truthy".toList :=
  ⟨(scope_namespacing_amended asciiTables "ext/spec/specs/sections.json".toList
      "ext/spec/specs/inverted.json".toList "Truthy".toList).1 (by decide),
   (scope_namespacing_amended asciiTables "ext/spec/specs/sections.json".toList
      "ext/spec/specs/sections/Sections.json".toList "Truthy".toList).2 (by decide)⟩

/-! ## The run -/

theorem contains_eq_true_iff (s sub : Str) : stringsContains s sub = true ↔ sub <:+: s := by
  rw [contains_iff, List.infix_iff_prefix_suffix]
  constructor
  · rintro ⟨t, h1, h2⟩; exact ⟨t, h2, h1⟩
  · rintro ⟨t, h1, h2⟩; exact ⟨t, h2, h1⟩

theorem retained_iff (path : Str) :
    Retained path ↔ (hasSuffix path ".json".toList = true ∧ isSupportedSpec path = true) := by
  unfold Retained hasSuffix isSupportedSpec supportedSpecNames
  rw [List.isSuffixOf_iff_suffix, List.any_eq_true]
  constructor
  · rintro ⟨h1, topic, ht, hin⟩
    exact ⟨h1, topic, ht, (contains_eq_true_iff _ _).mpr hin⟩
  · rintro ⟨h1, topic, ht, hin⟩
    exact ⟨h1, topic, ht, (contains_eq_true_iff _ _).mp hin⟩

theorem walkFn_of_not_retained (env : Env) (buf : Str) (entry : WalkEntry)
    (h : ¬ Retained entry.path) : walkFn env buf entry = some buf := by
  unfold walkFn
  cases h1 : hasSuffix entry.path ".json".toList with
  | false => rfl
  | true =>
    cases h2 : isSupportedSpec entry.path with
    | false => rfl
    | true => exact absurd ((retained_iff _).mpr ⟨h1, h2⟩) h

theorem walkFn_of_retained (env : Env) (buf : Str) (entry : WalkEntry)
    (h : Retained entry.path) : walkFn env buf entry = generateTests env buf entry.path := by
  obtain ⟨h1, h2⟩ := (retained_iff _).mp h
  unfold walkFn
  rw [h1, h2]
  rfl

theorem emitTests_eq (env : Env) (scope : Str) :
    ∀ (tests : List JSONSpecTest) (buf : Str),
      emitTests env scope buf tests =
        buf ++ (tests.map (testSpecText env.U env.formatFloat scope)).flatten := by
  intro tests
  induction tests with
  | nil => intro buf; simp [emitTests]
  | cons t ts ih =>
    intro buf
    simp [emitTests, ih, testSpec, List.append_assoc]

theorem generateTests_of_doc (env : Env) (buf path : Str) (doc : JSONSpecDoc)
    (h : docOf env path = some doc) :
    generateTests env buf path =
      some (buf ++ ((casesOf env path).map
        (testSpecText env.U env.formatFloat (scopeOf path))).flatten) := by
  unfold generateTests casesOf
  rw [h]
  unfold docOf at h
  cases hr : env.readFile path with
  | none => rw [hr] at h; simp at h
  | some data =>
    rw [hr] at h
    simp only [Option.some_bind] at h
    simp only [h, emitTests_eq]

theorem generateTests_of_no_doc (env : Env) (buf path : Str) (h : docOf env path = none) :
    generateTests env buf path = none := by
  unfold generateTests
  unfold docOf at h
  cases hr : env.readFile path with
  | none => rfl
  | some data =>
    rw [hr] at h
    simp only [Option.some_bind] at h
    simp only [h]

theorem walk_eq (env : Env) :
    ∀ (entries : List WalkEntry) (buf : Str),
      (∀ e ∈ entries, Retained e.path → ∃ doc, docOf env e.path = some doc) →
      walk env buf entries = some (buf ++ (expectedRoutines env entries).flatten) := by
  intro entries
  induction entries with
  | nil => intro buf _; simp [walk, expectedRoutines]
  | cons e es ih =>
    intro buf hok
    have hes : ∀ x ∈ es, Retained x.path → ∃ doc, docOf env x.path = some doc :=
      fun x hx => hok x (List.mem_cons_of_mem _ hx)
    by_cases hr : Retained e.path
    · obtain ⟨doc, hdoc⟩ := hok e (List.mem_cons_self _ _) hr
      simp only [walk, walkFn_of_retained env buf e hr, generateTests_of_doc env buf e.path doc hdoc]
      rw [ih _ hes]
      simp [expectedRoutines, List.filter_cons, hr, List.append_assoc]
    · simp only [walk, walkFn_of_not_retained env buf e hr]
      rw [ih _ hes]
      simp [expectedRoutines, List.filter_cons, hr]

theorem walk_fatal (env : Env) :
    ∀ (entries : List WalkEntry) (buf : Str),
      (∃ e ∈ entries, Retained e.path ∧ docOf env e.path = none) →
      walk env buf entries = none := by
  intro entries
  induction entries with
  | nil => intro buf h; obtain ⟨e, he, _⟩ := h; simp at he
  | cons x xs ih =>
    intro buf h
    obtain ⟨e, he, hret, hdoc⟩ := h
    unfold walk
    rcases List.mem_cons.mp he with hex | hex
    · subst hex
      rw [walkFn_of_retained env buf e hret, generateTests_of_no_doc env buf e.path hdoc]
    · cases hw : walkFn env buf x with
      | none => rfl
      | some buf1 => exact ih buf1 ⟨e, hex, hret, hdoc⟩

theorem docOf_eq_none_iff (env : Env) (path : Str) :
    docOf env path = none ↔
      (env.readFile path = none ∨
        ∃ data, env.readFile path = some data ∧ env.unmarshal data = none) := by
  unfold docOf
  cases hr : env.readFile path with
  | none => simp
  | some data => simp

theorem walk_err_irrelevant (env : Env) :
    ∀ (entries : List WalkEntry) (buf : Str),
      walk env buf entries =
        walk env buf (entries.map (fun e => { path := e.path, err := false })) := by
  intro entries
  induction entries with
  | nil => intro buf; rfl
  | cons e es ih =>
    intro buf
    simp only [List.map_cons, walk]
    have : walkFn env buf { path := e.path, err := false } = walkFn env buf e := rfl
    rw [this]
    cases walkFn env buf e with
    | none => rfl
    | some buf1 => exact ih buf1

theorem expectedRoutines_length (env : Env) (entries : List WalkEntry) :
    (expectedRoutines env entries).length =
      ((entries.filter (fun e => decide (Retained e.path))).map
        (fun e => (casesOf env e.path).length)).sum := by
  unfold expectedRoutines
  induction entries.filter (fun e => decide (Retained e.path)) with
  | nil => rfl
  | cons e es ih => simp [List.flatMap_cons, ih]

theorem testSpecText_opens (U : UnicodeTables) (formatFloat : Float64 → Str) (scope : Str)
    (test : JSONSpecTest) : "func Test".toList <+: testSpecText U formatFloat scope test := by
  unfold testSpecText routineName
  exact ⟨_, by simp [List.append_assoc]; rfl⟩

/-! ## String literals denote the quoted string -/

theorem hexVal_lowerhex (d : Nat) (h : d < 16) : hexVal (lowerhex d) = some d := by
  interval_cases d <;> rfl

theorem char_eq_of_toNat (c : Char) (n : Nat) (h : c.toNat = n) : c = Char.ofNat n := by
  rw [← h, Char.ofNat_toNat]

theorem runeOfNat_toNat (c : Char) : runeOfNat c.toNat = some c := by
  unfold runeOfNat
  have hv : c.toNat < 0xD800 ∨ (0xDFFF < c.toNat ∧ c.toNat < 0x110000) := c.valid
  rw [if_pos hv, Char.ofNat_toNat]

theorem unquoteBody_plain (c : Char) (t : Str) (h1 : c ≠ dq) (h2 : c ≠ '\n') (h3 : c ≠ bs) :
    unquoteBody (c :: t) = consResult (some c) (unquoteBody t) := by
  simp only [unquoteBody, unquoteScan, h1, h2, h3, if_false]

theorem unquoteBody_simple (e v : Char) (t : Str) (h : simpleEscape e = some v) :
    unquoteBody (bs :: e :: t) = consResult (some v) (unquoteBody t) := by
  have h1 : bs ≠ dq := by decide
  have h2 : bs ≠ '\n' := by decide
  simp only [unquoteBody, unquoteScan, h1, h2, if_false, if_true, h, Option.isSome_some]

theorem unquoteBody_x (n : Nat) (t : Str) (h : n < 256) :
    unquoteBody (bs :: 'x' :: lowerhex (n / 16) :: lowerhex (n % 16) :: t) =
      consResult (runeOfByte n) (unquoteBody t) := by
  have h1 : bs ≠ dq := by decide
  have h2 : bs ≠ '\n' := by decide
  have hs : (simpleEscape 'x').isSome = false := by decide
  have e2 : n / 16 * 16 + n % 16 = n := by omega
  simp [unquoteBody, unquoteScan, h1, h2, hs, digitOf, hexVal_lowerhex (n / 16) (by omega),
    hexVal_lowerhex (n % 16) (by omega), e2]

theorem unquoteBody_u (n : Nat) (t : Str) (h : n < 65536) :
    unquoteBody (bs :: 'u' :: lowerhex (n / 4096 % 16) :: lowerhex (n / 256 % 16) ::
      lowerhex (n / 16 % 16) :: lowerhex (n % 16) :: t) =
      consResult (runeOfNat n) (unquoteBody t) := by
  have h1 : bs ≠ dq := by decide
  have h2 : bs ≠ '\n' := by decide
  have hs : (simpleEscape 'u').isSome = false := by decide
  have e2 : ((n / 4096 % 16 * 16 + n / 256 % 16) * 16 + n / 16 % 16) * 16 + n % 16 = n := by
    omega
  simp [unquoteBody, unquoteScan, h1, h2, hs, digitOf, hexVal_lowerhex (n / 4096 % 16) (by omega),
    hexVal_lowerhex (n / 256 % 16) (by omega), hexVal_lowerhex (n / 16 % 16) (by omega),
    hexVal_lowerhex (n % 16) (by omega), e2]

theorem unquoteBody_U (n : Nat) (t : Str) (h : n < 4294967296) :
    unquoteBody (bs :: 'U' :: lowerhex (n / 268435456 % 16) :: lowerhex (n / 16777216 % 16) ::
      lowerhex (n / 1048576 % 16) :: lowerhex (n / 65536 % 16) ::
      lowerhex (n / 4096 % 16) :: lowerhex (n / 256 % 16) ::
      lowerhex (n / 16 % 16) :: lowerhex (n % 16) :: t) =
      consResult (runeOfNat n) (unquoteBody t) := by
  have h1 : bs ≠ dq := by decide
  have h2 : bs ≠ '\n' := by decide
  have hs : (simpleEscape 'U').isSome = false := by decide
  have e2 : ((((((n / 268435456 % 16 * 16 + n / 16777216 % 16) * 16 + n / 1048576 % 16) * 16 +
      n / 65536 % 16) * 16 + n / 4096 % 16) * 16 + n / 256 % 16) * 16 + n / 16 % 16) * 16 +
      n % 16 = n := by
    omega
  simp [unquoteBody, unquoteScan, h1, h2, hs, digitOf,
    hexVal_lowerhex (n / 268435456 % 16) (by omega),
    hexVal_lowerhex (n / 16777216 % 16) (by omega),
    hexVal_lowerhex (n / 1048576 % 16) (by omega), hexVal_lowerhex (n / 65536 % 16) (by omega),
    hexVal_lowerhex (n / 4096 % 16) (by omega),
    hexVal_lowerhex (n / 256 % 16) (by omega), hexVal_lowerhex (n / 16 % 16) (by omega),
    hexVal_lowerhex (n % 16) (by omega), e2]

/-- The escape of one rune is read back as that rune. -/
theorem unquoteBody_escaped (U : UnicodeTables) (c : Char) (t : Str) :
    unquoteBody (appendEscapedRune U c ++ t) = consResult (some c) (unquoteBody t) := by
  unfold appendEscapedRune
  by_cases hq : c = dq ∨ c = bs
  · rw [if_pos hq]
    rcases hq with h | h <;> subst h
    · exact unquoteBody_simple dq dq t rfl
    · exact unquoteBody_simple bs bs t rfl
  rw [if_neg hq]
  have hdq : c ≠ dq := fun h => hq (Or.inl h)
  have hbs : c ≠ bs := fun h => hq (Or.inr h)
  by_cases hp : strconvIsPrint U c = true
  · rw [if_pos hp]
    have hnl : c ≠ '\n' := by
      intro h
      subst h
      revert hp
      simp [strconvIsPrint]
    exact unquoteBody_plain c t hdq hnl hbs
  rw [if_neg hp]
  by_cases h7 : c.toNat = 7
  · rw [if_pos h7, char_eq_of_toNat c 7 h7]; exact unquoteBody_simple 'a' _ t rfl
  rw [if_neg h7]
  by_cases h8 : c.toNat = 8
  · rw [if_pos h8, char_eq_of_toNat c 8 h8]; exact unquoteBody_simple 'b' _ t rfl
  rw [if_neg h8]
  by_cases h12 : c.toNat = 12
  · rw [if_pos h12, char_eq_of_toNat c 12 h12]; exact unquoteBody_simple 'f' _ t rfl
  rw [if_neg h12]
  by_cases h10 : c.toNat = 10
  · rw [if_pos h10, char_eq_of_toNat c 10 h10]; exact unquoteBody_simple 'n' _ t rfl
  rw [if_neg h10]
  by_cases h13 : c.toNat = 13
  · rw [if_pos h13, char_eq_of_toNat c 13 h13]; exact unquoteBody_simple 'r' _ t rfl
  rw [if_neg h13]
  by_cases h9 : c.toNat = 9
  · rw [if_pos h9, char_eq_of_toNat c 9 h9]; exact unquoteBody_simple 't' _ t rfl
  rw [if_neg h9]
  by_cases h11 : c.toNat = 11
  · rw [if_pos h11, char_eq_of_toNat c 11 h11]; exact unquoteBody_simple 'v' _ t rfl
  rw [if_neg h11]
  by_cases hx : c.toNat < 0x20 ∨ c.toNat = 0x7F
  · rw [if_pos hx]
    have hlt : c.toNat < 0x80 := by omega
    show unquoteBody (bs :: 'x' :: lowerhex (c.toNat / 16) :: lowerhex (c.toNat % 16) :: t) = _
    rw [unquoteBody_x c.toNat t (by omega)]
    simp [runeOfByte, hlt, Char.ofNat_toNat]
  rw [if_neg hx]
  by_cases hu : c.toNat < 0x10000
  · rw [if_pos hu]
    show unquoteBody (bs :: 'u' :: lowerhex (c.toNat / 4096 % 16) ::
      lowerhex (c.toNat / 256 % 16) :: lowerhex (c.toNat / 16 % 16) ::
      lowerhex (c.toNat % 16) :: t) = _
    rw [unquoteBody_u c.toNat t hu, runeOfNat_toNat]
  · rw [if_neg hu]
    have hv : c.toNat < 0xD800 ∨ (0xDFFF < c.toNat ∧ c.toNat < 0x110000) := c.valid
    show unquoteBody (bs :: 'U' :: lowerhex (c.toNat / 268435456 % 16) ::
      lowerhex (c.toNat / 16777216 % 16) :: lowerhex (c.toNat / 1048576 % 16) ::
      lowerhex (c.toNat / 65536 % 16) :: lowerhex (c.toNat / 4096 % 16) ::
      lowerhex (c.toNat / 256 % 16) :: lowerhex (c.toNat / 16 % 16) ::
      lowerhex (c.toNat % 16) :: t) = _
    rw [unquoteBody_U c.toNat t (by omega), runeOfNat_toNat]

/-- The text written by `strconv.Quote`, read from after its opening quote,
denotes the quoted string and ends at the closing quote. -/
theorem unquoteBody_quoteBody (U : UnicodeTables) (s rest : Str) :
    unquoteBody (quoteBody U s ++ dq :: rest) = some (s, rest) := by
  induction s with
  | nil =>
    show unquoteBody (dq :: rest) = some ([], rest)
    simp [unquoteBody, unquoteScan]
  | cons c s ih =>
    have : quoteBody U (c :: s) ++ dq :: rest =
        appendEscapedRune U c ++ (quoteBody U s ++ dq :: rest) := by
      simp [quoteBody, List.flatMap_cons, List.append_assoc]
    rw [this, unquoteBody_escaped, ih]
    rfl

theorem goUnquote_quote (U : UnicodeTables) (s : Str) :
    goUnquote (strconvQuote U s) = some s := by
  unfold goUnquote strconvQuote
  simp only [if_true]
  rw [unquoteBody_quoteBody]

/-! ## Composite literals denote the printed value -/

theorem skipSpace_cons (c : Char) (s : Str) (h : NotSpace c) : skipSpace (c :: s) = c :: s := by
  obtain ⟨h1, h2, h3, h4⟩ := h
  simp [skipSpace, List.dropWhile, h1, h2, h3, h4]

theorem skipSpace_space (s : Str) : skipSpace (' ' :: s) = skipSpace s := by
  simp [skipSpace, List.dropWhile]

theorem afterPrefix_append (p rest : Str) : afterPrefix p (p ++ rest) = some rest := by
  induction p with
  | nil => cases rest <;> rfl
  | cons c p ih => simp [afterPrefix, ih]

theorem evalExpr_dq (parseFloat : Str → Option Float64) (fuel : Nat) (body : Str) :
    evalExpr parseFloat (fuel + 1) (dq :: body) =
      match unquoteBody body with
      | some (v, rest) => some (GoValue.string v, rest)
      | none => none := by
  have hs : NotSpace dq := by decide
  rw [evalExpr, skipSpace_cons dq body hs]
  simp

theorem evalExpr_true (parseFloat : Str → Option Float64) (fuel : Nat) (rest : Str) :
    evalExpr parseFloat (fuel + 1) ("true".toList ++ rest) = some (GoValue.bool true, rest) := by
  have hs : NotSpace 't' := by decide
  have h1 : ('t' : Char) ≠ dq := by decide
  show evalExpr parseFloat (fuel + 1) ('t' :: ("rue".toList ++ rest)) = _
  rw [evalExpr, skipSpace_cons _ _ hs]
  simp only [h1, if_false, if_true, afterPrefix_append]

theorem evalExpr_false (parseFloat : Str → Option Float64) (fuel : Nat) (rest : Str) :
    evalExpr parseFloat (fuel + 1) ("false".toList ++ rest) = some (GoValue.bool false, rest) := by
  have hs : NotSpace 'f' := by decide
  have h1 : ('f' : Char) ≠ dq := by decide
  have h2 : ('f' : Char) ≠ 't' := by decide
  show evalExpr parseFloat (fuel + 1) ('f' :: ("alse".toList ++ rest)) = _
  rw [evalExpr, skipSpace_cons _ _ hs]
  simp only [h1, h2, if_false, if_true, afterPrefix_append]

theorem evalExpr_nil (parseFloat : Str → Option Float64) (fuel : Nat) (rest : Str) :
    evalExpr parseFloat (fuel + 1) ("interface \x7b\x7d(nil)".toList ++ rest) = some (GoValue.nil, rest) := by
  have hs : NotSpace 'i' := by decide
  have h1 : ('i' : Char) ≠ dq := by decide
  have h2 : ('i' : Char) ≠ 't' := by decide
  have h3 : ('i' : Char) ≠ 'f' := by decide
  show evalExpr parseFloat (fuel + 1) ('i' :: ("nterface \x7b\x7d(nil)".toList ++ rest)) = _
  rw [evalExpr, skipSpace_cons _ _ hs]
  simp only [h1, h2, h3, if_false, if_true, afterPrefix_append]

theorem evalExpr_slice (parseFloat : Str → Option Float64) (fuel : Nat) (rest : Str) :
    evalExpr parseFloat (fuel + 1) ("[]interface \x7b\x7d\x7b".toList ++ rest) =
      match evalElems parseFloat fuel rest with
      | some (xs, rest1) => some (GoValue.slice xs, rest1)
      | none => none := by
  have hs : NotSpace '[' := by decide
  have h1 : ('[' : Char) ≠ dq := by decide
  have h2 : ('[' : Char) ≠ 't' := by decide
  have h3 : ('[' : Char) ≠ 'f' := by decide
  have h4 : ('[' : Char) ≠ 'i' := by decide
  show evalExpr parseFloat (fuel + 1) ('[' :: ("]interface \x7b\x7d\x7b".toList ++ rest)) = _
  rw [evalExpr, skipSpace_cons _ _ hs]
  simp only [h1, h2, h3, h4, if_false, if_true, afterPrefix_append]

theorem evalExpr_map (parseFloat : Str → Option Float64) (fuel : Nat) (rest : Str) :
    evalExpr parseFloat (fuel + 1) ("map[string]interface \x7b\x7d\x7b".toList ++ rest) =
      match evalMembers parseFloat fuel rest with
      | some (kvs, rest1) => some (GoValue.map kvs, rest1)
      | none => none := by
  have hs : NotSpace 'm' := by decide
  have h1 : ('m' : Char) ≠ dq := by decide
  have h2 : ('m' : Char) ≠ 't' := by decide
  have h3 : ('m' : Char) ≠ 'f' := by decide
  have h4 : ('m' : Char) ≠ 'i' := by decide
  have h5 : ('m' : Char) ≠ '[' := by decide
  show evalExpr parseFloat (fuel + 1) ('m' :: ("ap[string]interface \x7b\x7d\x7b".toList ++ rest)) = _
  rw [evalExpr, skipSpace_cons _ _ hs]
  simp only [h1, h2, h3, h4, h5, if_false, if_true, afterPrefix_append]

theorem evalElems_close (parseFloat : Str → Option Float64) (fuel : Nat) (rest : Str) :
    evalElems parseFloat (fuel + 1) ('\x7d' :: rest) = some ([], rest) := by
  have hs : NotSpace '\x7d' := by decide
  rw [evalElems, skipSpace_cons _ _ hs]
  simp

theorem evalElems_space (parseFloat : Str → Option Float64) (fuel : Nat) (s : Str) :
    evalElems parseFloat (fuel + 1) (' ' :: s) = evalElems parseFloat (fuel + 1) s := by
  rw [evalElems, evalElems, skipSpace_space]

theorem evalMembers_close (parseFloat : Str → Option Float64) (fuel : Nat) (rest : Str) :
    evalMembers parseFloat (fuel + 1) ('\x7d' :: rest) = some ([], rest) := by
  have hs : NotSpace '\x7d' := by decide
  rw [evalMembers, skipSpace_cons _ _ hs]
  simp

theorem evalMembers_space (parseFloat : Str → Option Float64) (fuel : Nat) (s : Str) :
    evalMembers parseFloat (fuel + 1) (' ' :: s) = evalMembers parseFloat (fuel + 1) s := by
  rw [evalMembers, evalMembers, skipSpace_space]

theorem isNumberChar_cases (c : Char) (h : isNumberChar c = true) :
    asciiDigit c = true ∨ c = '.' ∨ c = 'e' ∨ c = 'E' ∨ c = '+' ∨ c = '-' := by
  simpa [isNumberChar, or_assoc] using h

theorem asciiDigit_toNat (c : Char) (h : asciiDigit c = true) :
    48 ≤ c.toNat ∧ c.toNat ≤ 57 := by
  simpa [asciiDigit, inRange] using h

/-- A number rune is none of the runes that open another expression, close a
list or separate its elements, and is no white space. -/
theorem isNumberChar_ne (c x : Char) (h : isNumberChar c = true)
    (hx : isNumberChar x = false) : c ≠ x := by
  intro hcx
  rw [hcx, hx] at h
  exact Bool.noConfusion h

/-- The `%#v` form of a safe value starts with a rune that is neither white
space nor a closing brace. -/
theorem printValue_starts (U : UnicodeTables) (formatFloat : Float64 → Str)
    (parseFloat : Str → Option Float64) (d : GoValue)
    (hn : d.literalSafe (printsAsFloatLiteral formatFloat parseFloat) = true) :
    ∃ c t, printValue U formatFloat d = c :: t ∧ NotSpace c ∧ c ≠ '\x7d' := by
  cases d with
  | nil => exact ⟨'i', _, by rw [printValue]; rfl, by decide, by decide⟩
  | bool b =>
    cases b
    · exact ⟨'f', _, by rw [printValue]; rfl, by decide, by decide⟩
    · exact ⟨'t', _, by rw [printValue]; rfl, by decide, by decide⟩
  | int n => simp [GoValue.literalSafe] at hn
  | float64 x =>
    have hok : printsAsFloatLiteral formatFloat parseFloat x = true := by
      simpa [GoValue.literalSafe] using hn
    simp only [printsAsFloatLiteral, Bool.and_eq_true] at hok
    obtain ⟨⟨⟨hall, hne⟩, _⟩, _⟩ := hok
    rw [printValue]
    cases hf : formatFloat x with
    | nil => rw [hf] at hne; simp at hne
    | cons c t =>
      rw [hf] at hall
      have hc : isNumberChar c = true := by
        simp only [List.all_cons, Bool.and_eq_true] at hall
        exact hall.1
      exact ⟨c, t, rfl,
        ⟨isNumberChar_ne c ' ' hc (by decide), isNumberChar_ne c '\t' hc (by decide),
          isNumberChar_ne c '\n' hc (by decide), isNumberChar_ne c '\r' hc (by decide)⟩,
        isNumberChar_ne c '\x7d' hc (by decide)⟩
  | string s => exact ⟨dq, _, by rw [printValue]; rfl, by decide, by decide⟩
  | slice xs => exact ⟨'[', _, by rw [printValue]; rfl, by decide, by decide⟩
  | map kvs => exact ⟨'m', _, by rw [printValue]; rfl, by decide, by decide⟩

theorem evalElems_step (parseFloat : Str → Option Float64) (fuel : Nat) (c : Char)
    (body : Str) (hs : NotSpace c) (hc : c ≠ '\x7d') :
    evalElems parseFloat (fuel + 1) (c :: body) =
      match evalExpr parseFloat fuel (c :: body) with
      | none => none
      | some (v, rest) =>
        match skipSpace rest with
        | [] => none
        | d :: rest1 =>
          if d = ',' then
            match evalElems parseFloat fuel rest1 with
            | some (vs, rest2) => some (v :: vs, rest2)
            | none => none
          else if d = '\x7d' then some ([v], rest1)
          else none := by
  rw [evalElems, skipSpace_cons _ _ hs]
  simp only [hc, if_false]

theorem evalMembers_step (parseFloat : Str → Option Float64) (fuel : Nat) (body : Str) :
    evalMembers parseFloat (fuel + 1) (dq :: body) =
      match unquoteBody body with
      | none => none
      | some (k, afterKey) =>
        match skipSpace afterKey with
        | [] => none
        | colon :: afterColon =>
          if colon = ':' then
            match evalExpr parseFloat fuel afterColon with
            | none => none
            | some (v, rest) =>
              match skipSpace rest with
              | [] => none
              | d :: rest1 =>
                if d = ',' then
                  match evalMembers parseFloat fuel rest1 with
                  | some (kvs, rest2) => some ((k, v) :: kvs, rest2)
                  | none => none
                else if d = '\x7d' then some ([(k, v)], rest1)
                else none
          else none := by
  have hs : NotSpace dq := by decide
  have hc : dq ≠ '\x7d' := by decide
  rw [evalMembers, skipSpace_cons _ _ hs]
  simp only [hc, if_false, if_true]

theorem takeWhile_append_stopped {α : Type} (p : α → Bool) (a b : List α)
    (ha : ∀ y ∈ a, p y = true) (hb : ∀ c t, b = c :: t → p c = false) :
    (a ++ b).takeWhile p = a := by
  cases b with
  | nil => rw [List.append_nil]; exact takeWhile_all p a ha
  | cons c t => exact takeWhile_append_stop p a t c ha (hb c t rfl)

theorem dropWhile_append_stopped {α : Type} (p : α → Bool) (a b : List α)
    (ha : ∀ y ∈ a, p y = true) (hb : ∀ c t, b = c :: t → p c = false) :
    (a ++ b).dropWhile p = b := by
  induction a with
  | nil =>
    cases b with
    | nil => rfl
    | cons c t => simp [List.dropWhile, hb c t rfl]
  | cons y a ih =>
    have hy := ha y (List.mem_cons_self _ _)
    simp only [List.cons_append, List.dropWhile_cons, hy, if_true]
    exact ih (fun z hz => ha z (List.mem_cons_of_mem _ hz))

/-- A float that prints as a floating-point literal is read back as itself,
when the text goes on with a comma, a closing brace, or ends. -/
theorem evalExpr_float (formatFloat : Float64 → Str) (parseFloat : Str → Option Float64)
    (fuel : Nat) (x : Float64) (rest : Str)
    (hok : printsAsFloatLiteral formatFloat parseFloat x = true) (hrest : StopsNumber rest) :
    evalExpr parseFloat (fuel + 1) (formatFloat x ++ rest) = some (GoValue.float64 x, rest) := by
  simp only [printsAsFloatLiteral, Bool.and_eq_true, Bool.not_eq_true', decide_eq_true_eq]
    at hok
  obtain ⟨⟨⟨hall, hne⟩, hint⟩, hparse⟩ := hok
  have hallm : ∀ y ∈ formatFloat x, isNumberChar y = true := by
    simpa [List.all_eq_true] using hall
  have hstop : ∀ c t, rest = c :: t → isNumberChar c = false := by
    intro c t hct
    rcases hrest c t hct with h | h <;> subst h <;> decide
  have htake : (formatFloat x ++ rest).takeWhile isNumberChar = formatFloat x :=
    takeWhile_append_stopped _ _ _ hallm hstop
  have hdrop : (formatFloat x ++ rest).dropWhile isNumberChar = rest :=
    dropWhile_append_stopped _ _ _ hallm hstop
  have hgo : identifierGoesOn rest = false := by
    cases rest with
    | nil => rfl
    | cons c t => rcases hrest c t rfl with h | h <;> subst h <;> rfl
  have hnum : evalNumber parseFloat (formatFloat x ++ rest) = some (GoValue.float64 x, rest) := by
    unfold evalNumber
    simp only [htake, hdrop, hgo, hint, hparse]
    have hnil : formatFloat x ≠ [] := by
      intro h; rw [h] at hne; simp at hne
    simp [hnil]
  cases hf : formatFloat x with
  | nil => rw [hf] at hne; simp at hne
  | cons c t =>
    have hc : isNumberChar c = true := hallm c (by rw [hf]; exact List.mem_cons_self _ _)
    have hs : NotSpace c :=
      ⟨isNumberChar_ne c ' ' hc (by decide), isNumberChar_ne c '\t' hc (by decide),
        isNumberChar_ne c '\n' hc (by decide), isNumberChar_ne c '\r' hc (by decide)⟩
    have h1 := isNumberChar_ne c dq hc (by decide)
    have h2 := isNumberChar_ne c 't' hc (by decide)
    have h3 := isNumberChar_ne c 'f' hc (by decide)
    have h4 := isNumberChar_ne c 'i' hc (by decide)
    have h5 := isNumberChar_ne c '[' hc (by decide)
    have h6 := isNumberChar_ne c 'm' hc (by decide)
    rw [hf] at hnum
    rw [List.cons_append] at hnum ⊢
    rw [evalExpr, skipSpace_cons _ _ hs]
    simp only [h1, h2, h3, h4, h5, h6, if_false]
    exact hnum

theorem evalExpr_string (U : UnicodeTables) (parseFloat : Str → Option Float64)
    (fuel : Nat) (s rest : Str) :
    evalExpr parseFloat (fuel + 1) (strconvQuote U s ++ rest) = some (GoValue.string s, rest) := by
  show evalExpr parseFloat (fuel + 1) (dq :: ((quoteBody U s ++ [dq]) ++ rest)) = _
  rw [evalExpr_dq]
  have : (quoteBody U s ++ [dq]) ++ rest = quoteBody U s ++ dq :: rest := by simp
  rw [this, unquoteBody_quoteBody]

theorem skipSpace_brace (rest : Str) : skipSpace ('\x7d' :: rest) = '\x7d' :: rest :=
  skipSpace_cons _ _ (by decide)

theorem skipSpace_comma (rest : Str) : skipSpace (',' :: rest) = ',' :: rest :=
  skipSpace_cons _ _ (by decide)

theorem skipSpace_colon (rest : Str) : skipSpace (':' :: rest) = ':' :: rest :=
  skipSpace_cons _ _ (by decide)

mutual
/-- Reading back the `%#v` form of a value without numbers gives the value. -/
theorem evalExpr_printValue (U : UnicodeTables) (formatFloat : Float64 → Str)
    (parseFloat : Str → Option Float64) :
    ∀ (d : GoValue) (fuel : Nat) (rest : Str),
      d.literalSafe (printsAsFloatLiteral formatFloat parseFloat) = true → d.nodes ≤ fuel →
      StopsNumber rest →
      evalExpr parseFloat fuel (printValue U formatFloat d ++ rest) = some (d, rest)
  | .nil, fuel, rest, _, hf, _ => by
    obtain ⟨f, rfl⟩ : ∃ f, fuel = f + 1 := ⟨fuel - 1, by simp [GoValue.nodes] at hf; omega⟩
    rw [printValue]
    exact evalExpr_nil parseFloat f rest
  | .bool b, fuel, rest, _, hf, _ => by
    obtain ⟨f, rfl⟩ : ∃ f, fuel = f + 1 := ⟨fuel - 1, by simp [GoValue.nodes] at hf; omega⟩
    rw [printValue]
    cases b
    · exact evalExpr_false parseFloat f rest
    · exact evalExpr_true parseFloat f rest
  | .int _, _, _, hn, _, _ => by simp [GoValue.literalSafe] at hn
  | .float64 x, fuel, rest, hn, hf, hrest => by
    obtain ⟨f, rfl⟩ : ∃ f, fuel = f + 1 := ⟨fuel - 1, by simp [GoValue.nodes] at hf; omega⟩
    have hok : printsAsFloatLiteral formatFloat parseFloat x = true := by
      simpa [GoValue.literalSafe] using hn
    rw [printValue]
    exact evalExpr_float formatFloat parseFloat f x rest hok hrest
  | .string s, fuel, rest, _, hf, _ => by
    obtain ⟨f, rfl⟩ : ∃ f, fuel = f + 1 := ⟨fuel - 1, by simp [GoValue.nodes] at hf; omega⟩
    rw [printValue]
    exact evalExpr_string U parseFloat f s rest
  | .slice xs, fuel, rest, hn, hf, _ => by
    obtain ⟨f, rfl⟩ : ∃ f, fuel = f + 1 := ⟨fuel - 1, by simp [GoValue.nodes] at hf; omega⟩
    have hn1 : GoValue.allLiteralSafe (printsAsFloatLiteral formatFloat parseFloat) xs = true := by
      simpa [GoValue.literalSafe] using hn
    have hf1 : GoValue.nodesElems xs ≤ f := by simp [GoValue.nodes] at hf; omega
    rw [printValue, List.append_assoc, List.append_assoc, evalExpr_slice]
    have := evalElems_printElems U formatFloat parseFloat xs f rest hn1 hf1
    simp only [String.toList, List.singleton_append] at this ⊢
    rw [this]
  | .map kvs, fuel, rest, hn, hf, _ => by
    obtain ⟨f, rfl⟩ : ∃ f, fuel = f + 1 := ⟨fuel - 1, by simp [GoValue.nodes] at hf; omega⟩
    have hn1 : GoValue.allMembersLiteralSafe (printsAsFloatLiteral formatFloat parseFloat) kvs =
        true := by
      simpa [GoValue.literalSafe] using hn
    have hf1 : GoValue.nodesMembers kvs ≤ f := by simp [GoValue.nodes] at hf; omega
    rw [printValue, List.append_assoc, List.append_assoc, evalExpr_map]
    have := evalMembers_printMembers U formatFloat parseFloat kvs f rest hn1 hf1
    simp only [String.toList, List.singleton_append] at this ⊢
    rw [this]
/-- Reading back the printed elements of a slice gives the elements. -/
theorem evalElems_printElems (U : UnicodeTables) (formatFloat : Float64 → Str)
    (parseFloat : Str → Option Float64) :
    ∀ (xs : List GoValue) (fuel : Nat) (rest : Str),
      GoValue.allLiteralSafe (printsAsFloatLiteral formatFloat parseFloat) xs = true →
      GoValue.nodesElems xs ≤ fuel →
      evalElems parseFloat fuel (printElems U formatFloat xs ++ '\x7d' :: rest) =
        some (xs, rest)
  | [], fuel, rest, _, hf => by
    obtain ⟨f, rfl⟩ : ∃ f, fuel = f + 1 := ⟨fuel - 1, by simp [GoValue.nodesElems] at hf; omega⟩
    rw [printElems]
    exact evalElems_close parseFloat f rest
  | [x], fuel, rest, hn, hf => by
    obtain ⟨f, rfl⟩ : ∃ f, fuel = f + 1 := ⟨fuel - 1, by simp [GoValue.nodesElems] at hf; omega⟩
    have hnx : x.literalSafe (printsAsFloatLiteral formatFloat parseFloat) = true := by
      simp [GoValue.allLiteralSafe] at hn; exact hn
    have hfx : x.nodes ≤ f := by simp [GoValue.nodesElems] at hf; omega
    obtain ⟨c, t, hct, hs, hc⟩ := printValue_starts U formatFloat parseFloat x hnx
    rw [printElems]
    have hx := evalExpr_printValue U formatFloat parseFloat x f ('\x7d' :: rest) hnx hfx
      (fun c t h => by
        have hc : c = '\x7d' := (List.cons.inj h).1.symm
        exact Or.inr hc)
    rw [hct] at hx ⊢
    rw [List.cons_append] at hx ⊢
    rw [evalElems_step parseFloat f c _ hs hc, hx]
    simp [skipSpace_brace]
  | x :: y :: xs, fuel, rest, hn, hf => by
    obtain ⟨f, rfl⟩ : ∃ f, fuel = f + 1 := ⟨fuel - 1, by simp [GoValue.nodesElems] at hf; omega⟩
    have hn2 : x.literalSafe (printsAsFloatLiteral formatFloat parseFloat) = true ∧
        GoValue.allLiteralSafe (printsAsFloatLiteral formatFloat parseFloat) (y :: xs) = true := by
      rw [GoValue.allLiteralSafe, Bool.and_eq_true] at hn; exact hn
    have hfx : x.nodes ≤ f := by rw [GoValue.nodesElems] at hf; omega
    have hfr : GoValue.nodesElems (y :: xs) ≤ f := by rw [GoValue.nodesElems] at hf; omega
    obtain ⟨g, rfl⟩ : ∃ g, f = g + 1 :=
      ⟨f - 1, by rw [GoValue.nodesElems] at hfr; omega⟩
    obtain ⟨c, t, hct, hs, hc⟩ := printValue_starts U formatFloat parseFloat x hn2.1
    rw [printElems]
    have hx := evalExpr_printValue U formatFloat parseFloat x (g + 1)
      (", ".toList ++ printElems U formatFloat (y :: xs) ++ '\x7d' :: rest) hn2.1 hfx
      (fun c t h => by
        have hc : c = ',' := (List.cons.inj h).1.symm
        exact Or.inl hc)
    have hr := evalElems_printElems U formatFloat parseFloat (y :: xs) (g + 1) rest hn2.2 hfr
    simp only [List.append_assoc] at hx ⊢
    rw [hct] at hx ⊢
    rw [List.cons_append] at hx ⊢
    rw [evalElems_step parseFloat (g + 1) c _ hs hc, hx]
    show (match skipSpace (',' :: ' ' :: (printElems U formatFloat (y :: xs) ++ '\x7d' :: rest)) with
      | [] => none
      | d :: rest1 =>
        if d = ',' then
          match evalElems parseFloat (g + 1) rest1 with
          | some (vs, rest2) => some (x :: vs, rest2)
          | none => none
        else if d = '\x7d' then some ([x], rest1)
        else none) = _
    rw [skipSpace_comma]
    simp only [if_true]
    rw [evalElems_space, hr]
/-- Reading back the printed entries of a map gives the entries. -/
theorem evalMembers_printMembers (U : UnicodeTables) (formatFloat : Float64 → Str)
    (parseFloat : Str → Option Float64) :
    ∀ (kvs : List (Str × GoValue)) (fuel : Nat) (rest : Str),
      GoValue.allMembersLiteralSafe (printsAsFloatLiteral formatFloat parseFloat) kvs = true →
      GoValue.nodesMembers kvs ≤ fuel →
      evalMembers parseFloat fuel (printMembers U formatFloat kvs ++ '\x7d' :: rest) =
        some (kvs, rest)
  | [], fuel, rest, _, hf => by
    obtain ⟨f, rfl⟩ : ∃ f, fuel = f + 1 :=
      ⟨fuel - 1, by simp [GoValue.nodesMembers] at hf; omega⟩
    rw [printMembers]
    exact evalMembers_close parseFloat f rest
  | [(k, v)], fuel, rest, hn, hf => by
    obtain ⟨f, rfl⟩ : ∃ f, fuel = f + 1 :=
      ⟨fuel - 1, by simp [GoValue.nodesMembers] at hf; omega⟩
    have hnv : v.literalSafe (printsAsFloatLiteral formatFloat parseFloat) = true := by
      simp [GoValue.allMembersLiteralSafe] at hn; exact hn
    have hfv : v.nodes ≤ f := by simp [GoValue.nodesMembers] at hf; omega
    have hv := evalExpr_printValue U formatFloat parseFloat v f ('\x7d' :: rest) hnv hfv
      (fun c t h => by
        have hc : c = '\x7d' := (List.cons.inj h).1.symm
        exact Or.inr hc)
    rw [printMembers]
    show evalMembers parseFloat (f + 1) (dq :: ((quoteBody U k ++ [dq]) ++
      ':' :: printValue U formatFloat v ++ '\x7d' :: rest)) = _
    rw [evalMembers_step]
    have hk : (quoteBody U k ++ [dq]) ++ ':' :: printValue U formatFloat v ++ '\x7d' :: rest =
        quoteBody U k ++ dq :: (':' :: (printValue U formatFloat v ++ '\x7d' :: rest)) := by
      simp
    rw [hk, unquoteBody_quoteBody]
    simp only [skipSpace_colon, if_true, hv, skipSpace_brace]
    simp
  | (k, v) :: y :: kvs, fuel, rest, hn, hf => by
    obtain ⟨f, rfl⟩ : ∃ f, fuel = f + 1 :=
      ⟨fuel - 1, by simp [GoValue.nodesMembers] at hf; omega⟩
    have hn2 : v.literalSafe (printsAsFloatLiteral formatFloat parseFloat) = true ∧
        GoValue.allMembersLiteralSafe (printsAsFloatLiteral formatFloat parseFloat) (y :: kvs) =
          true := by
      rw [GoValue.allMembersLiteralSafe, Bool.and_eq_true] at hn; exact hn
    have hfv : v.nodes ≤ f := by rw [GoValue.nodesMembers] at hf; omega
    have hfr : GoValue.nodesMembers (y :: kvs) ≤ f := by
      rw [GoValue.nodesMembers] at hf; omega
    obtain ⟨g, rfl⟩ : ∃ g, f = g + 1 := ⟨f - 1, by
      cases y with
      | mk k2 v2 => rw [GoValue.nodesMembers] at hfr; omega⟩
    have hv := evalExpr_printValue U formatFloat parseFloat v (g + 1)
      (", ".toList ++ printMembers U formatFloat (y :: kvs) ++ '\x7d' :: rest) hn2.1 hfv
      (fun c t h => by
        have hc : c = ',' := (List.cons.inj h).1.symm
        exact Or.inl hc)
    have hr := evalMembers_printMembers U formatFloat parseFloat (y :: kvs) (g + 1) rest hn2.2 hfr
    rw [printMembers]
    show evalMembers parseFloat (g + 1 + 1) (dq :: ((quoteBody U k ++ [dq]) ++
      ':' :: printValue U formatFloat v ++ ", ".toList ++
        printMembers U formatFloat (y :: kvs) ++ '\x7d' :: rest)) = _
    rw [evalMembers_step]
    have hk : (quoteBody U k ++ [dq]) ++ ':' :: printValue U formatFloat v ++ ", ".toList ++
        printMembers U formatFloat (y :: kvs) ++ '\x7d' :: rest =
        quoteBody U k ++ dq :: (':' :: (printValue U formatFloat v ++ (", ".toList ++
          printMembers U formatFloat (y :: kvs) ++ '\x7d' :: rest))) := by
      simp
    rw [hk, unquoteBody_quoteBody]
    simp only [skipSpace_colon, if_true, hv]
    show (match skipSpace (',' :: ' ' ::
        (printMembers U formatFloat (y :: kvs) ++ '\x7d' :: rest)) with
      | [] => none
      | d :: rest1 =>
        if d = ',' then
          match evalMembers parseFloat (g + 1) rest1 with
          | some (kvs1, rest2) => some ((k, v) :: kvs1, rest2)
          | none => none
        else if d = '\x7d' then some ([(k, v)], rest1)
        else none) = _
    rw [skipSpace_comma]
    simp only [if_true]
    rw [evalMembers_space, hr]
end

theorem length_strconvQuote (U : UnicodeTables) (s : Str) : 2 ≤ (strconvQuote U s).length := by
  simp [strconvQuote]

mutual
theorem nodes_le_length (U : UnicodeTables) (formatFloat : Float64 → Str)
    (parseFloat : Str → Option Float64) :
    ∀ (d : GoValue), d.literalSafe (printsAsFloatLiteral formatFloat parseFloat) = true →
      d.nodes ≤ (printValue U formatFloat d).length
  | .nil, _ => by
    show 1 ≤ _
    rw [printValue]; decide
  | .bool b, _ => by
    show 1 ≤ _
    rw [printValue]; cases b <;> decide
  | .int _, hn => by simp [GoValue.literalSafe] at hn
  | .float64 x, hn => by
    have hok : printsAsFloatLiteral formatFloat parseFloat x = true := by
      simpa [GoValue.literalSafe] using hn
    simp only [printsAsFloatLiteral, Bool.and_eq_true] at hok
    obtain ⟨⟨⟨_, hne⟩, _⟩, _⟩ := hok
    show 1 ≤ _
    rw [printValue]
    cases hf : formatFloat x with
    | nil => rw [hf] at hne; simp at hne
    | cons c t => simp
  | .string s, _ => by
    show 1 ≤ _
    rw [printValue]
    have := length_strconvQuote U s
    omega
  | .slice xs, hn => by
    have hn1 : GoValue.allLiteralSafe (printsAsFloatLiteral formatFloat parseFloat) xs = true := by
      simpa [GoValue.literalSafe] using hn
    have := nodesElems_le_length U formatFloat parseFloat xs hn1
    rw [printValue, GoValue.nodes]
    simp only [List.length_append, String.toList, List.length_cons, List.length_nil]
    omega
  | .map kvs, hn => by
    have hn1 : GoValue.allMembersLiteralSafe (printsAsFloatLiteral formatFloat parseFloat) kvs =
        true := by
      simpa [GoValue.literalSafe] using hn
    have := nodesMembers_le_length U formatFloat parseFloat kvs hn1
    rw [printValue, GoValue.nodes]
    simp only [List.length_append, String.toList, List.length_cons, List.length_nil]
    omega
theorem nodesElems_le_length (U : UnicodeTables) (formatFloat : Float64 → Str)
    (parseFloat : Str → Option Float64) :
    ∀ (xs : List GoValue), GoValue.allLiteralSafe (printsAsFloatLiteral formatFloat parseFloat) xs = true →
      GoValue.nodesElems xs ≤ (printElems U formatFloat xs).length + 2
  | [], _ => by rw [printElems, GoValue.nodesElems]; simp
  | [x], hn => by
    have hnx : x.literalSafe (printsAsFloatLiteral formatFloat parseFloat) = true := by
      simp [GoValue.allLiteralSafe] at hn; exact hn
    have := nodes_le_length U formatFloat parseFloat x hnx
    rw [printElems, GoValue.nodesElems, GoValue.nodesElems]
    omega
  | x :: y :: xs, hn => by
    have hn2 : x.literalSafe (printsAsFloatLiteral formatFloat parseFloat) = true ∧
        GoValue.allLiteralSafe (printsAsFloatLiteral formatFloat parseFloat) (y :: xs) = true := by
      rw [GoValue.allLiteralSafe, Bool.and_eq_true] at hn; exact hn
    have h1 := nodes_le_length U formatFloat parseFloat x hn2.1
    have h2 := nodesElems_le_length U formatFloat parseFloat (y :: xs) hn2.2
    rw [printElems, GoValue.nodesElems]
    simp only [List.length_append, String.toList, List.length_cons, List.length_nil]
    omega
theorem nodesMembers_le_length (U : UnicodeTables) (formatFloat : Float64 → Str)
    (parseFloat : Str → Option Float64) :
    ∀ (kvs : List (Str × GoValue)),
      GoValue.allMembersLiteralSafe (printsAsFloatLiteral formatFloat parseFloat) kvs = true →
      GoValue.nodesMembers kvs ≤ (printMembers U formatFloat kvs).length + 2
  | [], _ => by rw [printMembers, GoValue.nodesMembers]; simp
  | [(k, v)], hn => by
    have hnv : v.literalSafe (printsAsFloatLiteral formatFloat parseFloat) = true := by
      simp [GoValue.allMembersLiteralSafe] at hn; exact hn
    have := nodes_le_length U formatFloat parseFloat v hnv
    rw [printMembers, GoValue.nodesMembers, GoValue.nodesMembers]
    simp only [List.length_append, List.length_cons]
    omega
  | (k, v) :: y :: kvs, hn => by
    have hn2 : v.literalSafe (printsAsFloatLiteral formatFloat parseFloat) = true ∧
        GoValue.allMembersLiteralSafe (printsAsFloatLiteral formatFloat parseFloat) (y :: kvs) =
          true := by
      rw [GoValue.allMembersLiteralSafe, Bool.and_eq_true] at hn; exact hn
    have h1 := nodes_le_length U formatFloat parseFloat v hn2.1
    have h2 := nodesMembers_le_length U formatFloat parseFloat (y :: kvs) hn2.2
    rw [printMembers, GoValue.nodesMembers]
    simp only [List.length_append, String.toList, List.length_cons, List.length_nil]
    omega
end

theorem fmtSharpV_of_ne_nil (U : UnicodeTables) (formatFloat : Float64 → Str) (d : GoValue)
    (h : d ≠ GoValue.nil) : fmtSharpV U formatFloat d = printValue U formatFloat d := by
  cases d <;> first | rfl | exact absurd rfl h

theorem goEval_printValue (U : UnicodeTables) (formatFloat : Float64 → Str)
    (parseFloat : Str → Option Float64) (d : GoValue)
    (hn : d.literalSafe (printsAsFloatLiteral formatFloat parseFloat) = true)
    (hk : d.keysDistinct = true) :
    goEval parseFloat (printValue U formatFloat d) = some d := by
  unfold goEval
  have h := evalExpr_printValue U formatFloat parseFloat d
    ((printValue U formatFloat d).length + 1) [] hn
    (Nat.le_succ_of_le (nodes_le_length U formatFloat parseFloat d hn))
    (fun c t h => by cases h)
  rw [List.append_nil] at h
  rw [h]
  simp [skipSpace, hk]

/-- C5 as stated fails.  A case whose data is null has `<nil>` emitted as its
data argument, which is no Go expression; and the `float64` 85, which `%g`
writes as `85`, is emitted as a literal that denotes the `int` 85, a value of
another dynamic type. -/
theorem literal_fidelity_counterexample :
    GoValue.isJSON GoValue.nil = true ∧
    testSpecText asciiTables sampleFormatFloat "interpolation".toList
        { Name := "Basic Interpolation".toList, Data := GoValue.nil,
          Expected := "Hello, world!".toList, Template := "Hello".toList,
          Description := [], Partials := none } =
      ("func TestInterpolationBasicInterpolation(t *testing.T) \x7b\n" ++
        "testSpec(t,\n\x22Hello\x22,\n\x22Hello, world!\x22,\n<nil>)\n\t\t\x7d\n\n").toList ∧
    fmtSharpV asciiTables sampleFormatFloat GoValue.nil = "<nil>".toList ∧
    goEval sampleParseFloat (fmtSharpV asciiTables sampleFormatFloat GoValue.nil) = none ∧
    GoValue.isJSON (GoValue.float64 { bits := 4635681760191971328 }) = true ∧
    fmtSharpV asciiTables sampleFormatFloat (GoValue.float64 { bits := 4635681760191971328 }) =
      "85".toList ∧
    goEval sampleParseFloat (fmtSharpV asciiTables sampleFormatFloat
        (GoValue.float64 { bits := 4635681760191971328 })) = some (GoValue.int 85) ∧
    goEval sampleParseFloat (fmtSharpV asciiTables sampleFormatFloat
        (GoValue.float64 { bits := 4635681760191971328 })) ≠
      some (GoValue.float64 { bits := 4635681760191971328 }) := by
  refine ⟨rfl, rfl, rfl, rfl, rfl, rfl, rfl, ?_⟩
  have h : goEval sampleParseFloat (fmtSharpV asciiTables sampleFormatFloat
      (GoValue.float64 { bits := 4635681760191971328 })) = some (GoValue.int 85) := rfl
  rw [h]
  intro hc
  cases hc

/-- C5, amended: the three arguments of the emitted assertion call are the
quoted template, the quoted expected string and the `%#v` form of the data;
each of the two string literals denotes exactly the original string, for every
string; and the data literal denotes exactly the data, with the same shape,
values and dynamic types, when the data is not the top-level null and every
number in it is written by the formatter as a floating-point literal (with a
decimal point or an exponent, not with digits only) that denotes that number. -/
theorem literal_fidelity_amended (U : UnicodeTables) (formatFloat : Float64 → Str)
    (parseFloat : Str → Option Float64) (scope : Str) (test : JSONSpecTest) :
    (∃ opening : Str,
      testSpecText U formatFloat scope test =
        opening ++ "testSpec(t,\n".toList ++
          (strconvQuote U test.Template ++ ",\n".toList ++ strconvQuote U test.Expected ++
            ",\n".toList ++ fmtSharpV U formatFloat test.Data) ++
          ")\n\t\t\x7d\n\n".toList) ∧
    goUnquote (strconvQuote U test.Template) = some test.Template ∧
    goUnquote (strconvQuote U test.Expected) = some test.Expected ∧
    (test.Data ≠ GoValue.nil →
      test.Data.literalSafe (printsAsFloatLiteral formatFloat parseFloat) = true →
      test.Data.keysDistinct = true →
      goEval parseFloat (fmtSharpV U formatFloat test.Data) = some test.Data) := by
  refine ⟨⟨_, rfl⟩, goUnquote_quote U _, goUnquote_quote U _, ?_⟩
  intro hnil hn hk
  rw [fmtSharpV_of_ne_nil U formatFloat _ hnil]
  exact goEval_printValue U formatFloat parseFloat _ hn hk

theorem literal_fidelity_amended_witness :
    goUnquote (strconvQuote asciiTables "say \x22hi\x22\n".toList) =
      some "say \x22hi\x22\n".toList ∧
    goEval sampleParseFloat (fmtSharpV asciiTables sampleFormatFloat
        (GoValue.map [("power".toList, GoValue.float64 { bits := 4608128174721765212 }),
          ("big".toList, GoValue.float64 { bits := 4921056587992461136 }),
          ("list".toList, GoValue.slice [GoValue.nil, GoValue.bool true,
            GoValue.string "world".toList])])) =
      some (GoValue.map [("power".toList, GoValue.float64 { bits := 4608128174721765212 }),
          ("big".toList, GoValue.float64 { bits := 4921056587992461136 }),
          ("list".toList, GoValue.slice [GoValue.nil, GoValue.bool true,
            GoValue.string "world".toList])]) :=
  ⟨(literal_fidelity_amended asciiTables sampleFormatFloat sampleParseFloat
      "interpolation".toList
      { Name := [], Data := GoValue.nil, Expected := [],
        Template := "say \x22hi\x22\n".toList, Description := [], Partials := none }).2.1,
   (literal_fidelity_amended asciiTables sampleFormatFloat sampleParseFloat
      "interpolation".toList
      { Name := [], Expected := [], Template := [], Description := [], Partials := none,
        Data := GoValue.map [("power".toList, GoValue.float64 { bits := 4608128174721765212 }),
          ("big".toList, GoValue.float64 { bits := 4921056587992461136 }),
          ("list".toList, GoValue.slice [GoValue.nil, GoValue.bool true,
            GoValue.string "world".toList])] }).2.2.2
      (by intro h; cases h) (by decide) (by decide)⟩

/-! ## Counting the routines in the generated text -/

theorem opening_of_head (c : Char) (w : Str) (h : c ≠ 'f') :
    routineOpening.isPrefixOf (c :: w) = false := by
  have : ('f' == c) = false := by
    rw [beq_eq_false_iff_ne]; exact fun e => h e.symm
  simp [routineOpening, List.isPrefixOf, this]

/-- A text without space that is followed by a rune other than `f`, `u`, `n`,
`c` and the space does not begin with `func Test`. -/
theorem opening_of_no_space (s : Str) (z : Char) (w : Str) (hs : ∀ c ∈ s, c ≠ ' ')
    (hz : z ≠ 'f' ∧ z ≠ 'u' ∧ z ≠ 'n' ∧ z ≠ 'c' ∧ z ≠ ' ') :
    routineOpening.isPrefixOf (s ++ z :: w) = false := by
  obtain ⟨z1, z2, z3, z4, z5⟩ := hz
  have e1 : ('f' == z) = false := by rw [beq_eq_false_iff_ne]; exact fun e => z1 e.symm
  have e2 : ('u' == z) = false := by rw [beq_eq_false_iff_ne]; exact fun e => z2 e.symm
  have e3 : ('n' == z) = false := by rw [beq_eq_false_iff_ne]; exact fun e => z3 e.symm
  have e4 : ('c' == z) = false := by rw [beq_eq_false_iff_ne]; exact fun e => z4 e.symm
  have e5 : (' ' == z) = false := by rw [beq_eq_false_iff_ne]; exact fun e => z5 e.symm
  match s, hs with
  | [], _ => simp [routineOpening, List.isPrefixOf, e1]
  | [a], _ => simp [routineOpening, List.isPrefixOf, e2]
  | [a, b], _ => simp [routineOpening, List.isPrefixOf, e3]
  | [a, b, c], _ => simp [routineOpening, List.isPrefixOf, e4]
  | [a, b, c, d], _ => simp [routineOpening, List.isPrefixOf, e5]
  | a :: b :: c :: d :: e :: t, hs =>
    have he : (' ' == e) = false := by
      rw [beq_eq_false_iff_ne]
      exact fun h => hs e (by simp) h.symm
    simp [routineOpening, List.isPrefixOf, he]

theorem countLater_cons_of_ne (c : Char) (s : Str) (h : c ≠ '\n') :
    countLaterRoutineLines (c :: s) = countLaterRoutineLines s := by
  simp [countLaterRoutineLines, h]

theorem countLater_newline (s : Str) :
    countLaterRoutineLines ('\n' :: s) =
      (if routineOpening.isPrefixOf s = true then 1 else 0) + countLaterRoutineLines s := by
  simp [countLaterRoutineLines]

theorem countLater_newline_quiet (s : Str) (h : routineOpening.isPrefixOf s = false) :
    countLaterRoutineLines ('\n' :: s) = countLaterRoutineLines s := by
  rw [countLater_newline, h]
  simp

/-- A stretch of text without newline adds no line. -/
theorem countLater_append_of_no_newline (s w : Str) (h : ∀ c ∈ s, c ≠ '\n') :
    countLaterRoutineLines (s ++ w) = countLaterRoutineLines w := by
  induction s with
  | nil => rfl
  | cons c s ih =>
    rw [List.cons_append, countLater_cons_of_ne c _ (h c (List.mem_cons_self _ _))]
    exact ih (fun x hx => h x (List.mem_cons_of_mem _ hx))

/-- A stretch of text without space, followed by a rune that cannot go on
`func Test`, adds no line, whatever newlines it holds. -/
theorem countLater_append_of_no_space (s : Str) (z : Char) (w : Str)
    (hs : ∀ c ∈ s, c ≠ ' ')
    (hz : z ≠ 'f' ∧ z ≠ 'u' ∧ z ≠ 'n' ∧ z ≠ 'c' ∧ z ≠ ' ') :
    countLaterRoutineLines (s ++ z :: w) = countLaterRoutineLines (z :: w) := by
  induction s with
  | nil => rfl
  | cons c s ih =>
    have hs1 : ∀ x ∈ s, x ≠ ' ' := fun x hx => hs x (List.mem_cons_of_mem _ hx)
    rw [List.cons_append, countLaterRoutineLines, opening_of_no_space s z w hs1 hz, ih hs1]
    simp

/-! ### The routine name -/

theorem unicodeToTitle_ne_f (U : UnicodeTables) (hU : TitleLeavesAscii U) (c : Char) :
    unicodeToTitle U c ≠ 'f' := by
  unfold unicodeToTitle
  by_cases hc : c.toNat ≤ 0x7F
  · rw [if_pos hc]
    by_cases hl : inRange 'a' 'z' c = true
    · rw [if_pos hl]
      have hr : 97 ≤ c.toNat ∧ c.toNat ≤ 122 := by simpa [inRange] using hl
      intro h
      have hv := ofNat_toNat_small (c.toNat - 32) (by omega)
      rw [h] at hv
      have : ('f' : Char).toNat = 102 := rfl
      omega
    · rw [if_neg hl]
      intro h
      rw [h] at hl
      exact hl (by decide)
  · rw [if_neg hc]
    intro h
    rcases hU c (by omega) with h1 | h1
    · rw [h] at h1; revert h1; decide
    · rw [h] at h1; revert h1; decide

theorem unicodeToTitle_newline (U : UnicodeTables) (hU : TitleLeavesAscii U) (c : Char)
    (h : unicodeToTitle U c = '\n') : c = '\n' := by
  unfold unicodeToTitle at h
  by_cases hc : c.toNat ≤ 0x7F
  · rw [if_pos hc] at h
    by_cases hl : inRange 'a' 'z' c = true
    · rw [if_pos hl] at h
      have hr : 97 ≤ c.toNat ∧ c.toNat ≤ 122 := by simpa [inRange] using hl
      have hv := ofNat_toNat_small (c.toNat - 32) (by omega)
      rw [h] at hv
      have : ('\n' : Char).toNat = 10 := rfl
      omega
    · rw [if_neg hl] at h
      exact h
  · rw [if_neg hc] at h
    rcases hU c (by omega) with h1 | h1
    · rw [h] at h1; exact absurd h1 (by decide)
    · rw [h] at h1; exact absurd h1 (by decide)

/-- After a separator, the title-cased text does not begin with `func Test`. -/
theorem opening_titleFrom (U : UnicodeTables) (hU : TitleLeavesAscii U) (prev : Char)
    (scope X : Str) (hprev : isSeparator U prev = true)
    (hX : routineOpening.isPrefixOf X = false) :
    routineOpening.isPrefixOf (titleFrom U prev scope ++ X) = false := by
  cases scope with
  | nil => exact hX
  | cons c s =>
    simp only [titleFrom, hprev, if_true, List.cons_append]
    exact opening_of_head _ _ (unicodeToTitle_ne_f U hU c)

/-- The title-cased scope adds no line. -/
theorem countLater_titleFrom (U : UnicodeTables) (hU : TitleLeavesAscii U) :
    ∀ (scope : Str) (prev : Char) (X : Str), routineOpening.isPrefixOf X = false →
      countLaterRoutineLines (titleFrom U prev scope ++ X) = countLaterRoutineLines X := by
  intro scope
  induction scope with
  | nil => intro prev X _; rfl
  | cons c s ih =>
    intro prev X hX
    have hsep : isSeparator U '\n' = true := by
      simp [isSeparator, inRange]
    have hq : ∀ t : Char, (t = c ∨ t = unicodeToTitle U c) →
        countLaterRoutineLines (t :: (titleFrom U c s ++ X)) = countLaterRoutineLines X := by
      intro t ht
      by_cases hn : t = '\n'
      · have hcn : c = '\n' := by
          rcases ht with h | h
          · rw [← h]; exact hn
          · exact unicodeToTitle_newline U hU c (by rw [← h]; exact hn)
        rw [hn, countLater_newline_quiet _
          (by rw [hcn]; exact opening_titleFrom U hU '\n' s X hsep hX)]
        exact ih c X hX
      · rw [countLater_cons_of_ne t _ hn]
        exact ih c X hX
    rw [titleFrom, List.cons_append]
    by_cases hp : isSeparator U prev = true
    · rw [if_pos hp]; exact hq _ (Or.inr rfl)
    · rw [if_neg hp]; exact hq _ (Or.inl rfl)

theorem deleteNameChars_no_space (name : Str) : ∀ c ∈ deleteNameChars name, c ≠ ' ' :=
  fun c hc => (mem_deleteNameChars name c hc).2.1

/-- The first line of a routine, without its newline, holds one line that
begins with `func Test`, its own, whatever the scope and the case name. -/
theorem countLater_first_line (U : UnicodeTables) (hU : TitleLeavesAscii U)
    (scope name w : Str) :
    countLaterRoutineLines ("func ".toList ++ routineName U scope name ++
        "(t *testing.T) \x7b".toList ++ w) =
      countLaterRoutineLines w := by
  have hz : ('(' : Char) ≠ 'f' ∧ ('(' : Char) ≠ 'u' ∧ ('(' : Char) ≠ 'n' ∧ ('(' : Char) ≠ 'c' ∧
      ('(' : Char) ≠ ' ' := by decide
  have hshape : "func ".toList ++ routineName U scope name ++ "(t *testing.T) \x7b".toList ++ w =
      "func Test".toList ++ (stringsTitle U scope ++
        (deleteNameChars name ++ '(' :: ("t *testing.T) \x7b".toList ++ w))) := by
    unfold routineName
    rw [replacerReplace_r]
    simp [List.append_assoc]
  rw [hshape, countLater_append_of_no_newline _ _ (by decide)]
  unfold stringsTitle
  rw [countLater_titleFrom U hU scope ' ' _
    (opening_of_no_space _ _ _ (deleteNameChars_no_space name) hz)]
  rw [countLater_append_of_no_space _ _ _ (deleteNameChars_no_space name) hz]
  exact countLater_append_of_no_newline ('(' :: "t *testing.T) \x7b".toList) w (by decide)

/-! ### The literals and the body of a routine -/

theorem lowerhex_plain (n : Nat) : lowerhex n ≠ '\n' ∧ lowerhex n ≠ ' ' := by
  by_cases h : n < 16
  · interval_cases n <;> decide
  · have : lowerhex n = '0' := by
      unfold lowerhex
      exact List.getD_eq_default _ _ (by simp [String.toList]; omega)
    rw [this]
    decide

theorem no_newline_nil : ∀ c ∈ ([] : Str), c ≠ '\n' :=
  fun _ h => absurd h (List.not_mem_nil _)

theorem no_newline_cons {a : Char} {l : Str} (ha : a ≠ '\n') (hl : ∀ c ∈ l, c ≠ '\n') :
    ∀ c ∈ a :: l, c ≠ '\n' := by
  intro c hc
  rcases List.mem_cons.mp hc with h | h
  · rw [h]; exact ha
  · exact hl c h

theorem no_newline_append {a b : Str} (ha : ∀ c ∈ a, c ≠ '\n') (hb : ∀ c ∈ b, c ≠ '\n') :
    ∀ c ∈ a ++ b, c ≠ '\n' := by
  intro c hc
  rcases List.mem_append.mp hc with h | h
  · exact ha c h
  · exact hb c h

theorem appendEscapedRune_no_newline (U : UnicodeTables) (r : Char) :
    ∀ c ∈ appendEscapedRune U r, c ≠ '\n' := by
  have hbs : bs ≠ '\n' := by decide
  have hdq : dq ≠ '\n' := by decide
  have hx := fun n => (lowerhex_plain n).1
  unfold appendEscapedRune
  by_cases hq : r = dq ∨ r = bs
  · rw [if_pos hq]
    have hr : r ≠ '\n' := by rcases hq with h | h <;> rw [h] <;> assumption
    exact no_newline_cons hbs (no_newline_cons hr no_newline_nil)
  rw [if_neg hq]
  by_cases hp : strconvIsPrint U r = true
  · rw [if_pos hp]
    have hr : r ≠ '\n' := by
      intro h
      rw [h] at hp
      revert hp
      simp [strconvIsPrint]
    exact no_newline_cons hr no_newline_nil
  rw [if_neg hp]
  by_cases h7 : r.toNat = 7
  · rw [if_pos h7]; exact no_newline_cons hbs (no_newline_cons (by decide) no_newline_nil)
  rw [if_neg h7]
  by_cases h8 : r.toNat = 8
  · rw [if_pos h8]; exact no_newline_cons hbs (no_newline_cons (by decide) no_newline_nil)
  rw [if_neg h8]
  by_cases h12 : r.toNat = 12
  · rw [if_pos h12]; exact no_newline_cons hbs (no_newline_cons (by decide) no_newline_nil)
  rw [if_neg h12]
  by_cases h10 : r.toNat = 10
  · rw [if_pos h10]; exact no_newline_cons hbs (no_newline_cons (by decide) no_newline_nil)
  rw [if_neg h10]
  by_cases h13 : r.toNat = 13
  · rw [if_pos h13]; exact no_newline_cons hbs (no_newline_cons (by decide) no_newline_nil)
  rw [if_neg h13]
  by_cases h9 : r.toNat = 9
  · rw [if_pos h9]; exact no_newline_cons hbs (no_newline_cons (by decide) no_newline_nil)
  rw [if_neg h9]
  by_cases h11 : r.toNat = 11
  · rw [if_pos h11]; exact no_newline_cons hbs (no_newline_cons (by decide) no_newline_nil)
  rw [if_neg h11]
  by_cases hxx : r.toNat < 0x20 ∨ r.toNat = 0x7F
  · rw [if_pos hxx]
    exact no_newline_cons hbs (no_newline_cons (by decide)
      (no_newline_cons (hx _) (no_newline_cons (hx _) no_newline_nil)))
  rw [if_neg hxx]
  by_cases hu : r.toNat < 0x10000
  · rw [if_pos hu]
    exact no_newline_cons hbs (no_newline_cons (by decide)
      (no_newline_cons (hx _) (no_newline_cons (hx _)
        (no_newline_cons (hx _) (no_newline_cons (hx _) no_newline_nil)))))
  · rw [if_neg hu]
    exact no_newline_cons hbs (no_newline_cons (by decide)
      (no_newline_cons (hx _) (no_newline_cons (hx _)
        (no_newline_cons (hx _) (no_newline_cons (hx _)
          (no_newline_cons (hx _) (no_newline_cons (hx _)
            (no_newline_cons (hx _) (no_newline_cons (hx _) no_newline_nil)))))))))

theorem quoteBody_no_newline (U : UnicodeTables) (s : Str) :
    ∀ c ∈ quoteBody U s, c ≠ '\n' := by
  intro c hc
  unfold quoteBody at hc
  obtain ⟨r, _, hr⟩ := List.mem_flatMap.mp hc
  exact appendEscapedRune_no_newline U r c hr

theorem strconvQuote_no_newline (U : UnicodeTables) (s : Str) :
    ∀ c ∈ strconvQuote U s, c ≠ '\n' := by
  unfold strconvQuote
  exact no_newline_cons (by decide)
    (no_newline_append (quoteBody_no_newline U s) (no_newline_cons (by decide) no_newline_nil))

theorem digitChar_plain (k : Nat) (h : k < 10) :
    Nat.digitChar k ≠ '\n' ∧ Nat.digitChar k ≠ ' ' := by
  interval_cases k <;> decide

theorem toDigitsCore_plain :
    ∀ (fuel n : Nat) (ds : List Char), (∀ c ∈ ds, c ≠ '\n' ∧ c ≠ ' ') →
      ∀ c ∈ Nat.toDigitsCore 10 fuel n ds, c ≠ '\n' ∧ c ≠ ' ' := by
  intro fuel
  induction fuel with
  | zero => intro n ds hds c hc; exact hds c (by simpa [Nat.toDigitsCore] using hc)
  | succ fuel ih =>
    intro n ds hds c hc
    have hcons : ∀ x ∈ Nat.digitChar (n % 10) :: ds, x ≠ '\n' ∧ x ≠ ' ' := by
      intro x hx
      rcases List.mem_cons.mp hx with h | h
      · rw [h]; exact digitChar_plain _ (Nat.mod_lt _ (by decide))
      · exact hds x h
    rw [Nat.toDigitsCore] at hc
    split_ifs at hc with h0
    · exact hcons c hc
    · exact ih _ _ hcons c hc

theorem fmtInt_plain (n : Int) : ∀ c ∈ fmtInt n, c ≠ '\n' ∧ c ≠ ' ' := by
  intro c hc
  unfold fmtInt at hc
  cases n with
  | ofNat k =>
    exact toDigitsCore_plain _ _ [] (fun _ h => absurd h (List.not_mem_nil _)) c hc
  | negSucc k =>
    rcases List.mem_cons.mp hc with h | h
    · rw [h]; decide
    · exact toDigitsCore_plain _ _ [] (fun _ h => absurd h (List.not_mem_nil _)) c h

mutual
/-- The `%#v` form of a value holds no newline. -/
theorem printValue_no_newline (U : UnicodeTables) (formatFloat : Float64 → Str)
    (hff : FloatTextPlain formatFloat) :
    ∀ (d : GoValue), ∀ c ∈ printValue U formatFloat d, c ≠ '\n'
  | .nil => by rw [printValue]; decide
  | .bool b => by rw [printValue]; cases b <;> decide
  | .int n => by
    rw [printValue]
    exact fun c hc => (fmtInt_plain n c hc).1
  | .float64 x => by
    rw [printValue]
    exact fun c hc => (hff x c hc).1
  | .string s => by
    rw [printValue]
    exact strconvQuote_no_newline U s
  | .slice xs => by
    rw [printValue]
    exact no_newline_append (no_newline_append (by decide)
      (printElems_no_newline U formatFloat hff xs)) (by decide)
  | .map kvs => by
    rw [printValue]
    exact no_newline_append (no_newline_append (by decide)
      (printMembers_no_newline U formatFloat hff kvs)) (by decide)
theorem printElems_no_newline (U : UnicodeTables) (formatFloat : Float64 → Str)
    (hff : FloatTextPlain formatFloat) :
    ∀ (xs : List GoValue), ∀ c ∈ printElems U formatFloat xs, c ≠ '\n'
  | [] => by rw [printElems]; exact no_newline_nil
  | [x] => by rw [printElems]; exact printValue_no_newline U formatFloat hff x
  | x :: y :: xs => by
    rw [printElems]
    exact no_newline_append (no_newline_append (printValue_no_newline U formatFloat hff x)
      (by decide)) (printElems_no_newline U formatFloat hff (y :: xs))
theorem printMembers_no_newline (U : UnicodeTables) (formatFloat : Float64 → Str)
    (hff : FloatTextPlain formatFloat) :
    ∀ (kvs : List (Str × GoValue)), ∀ c ∈ printMembers U formatFloat kvs, c ≠ '\n'
  | [] => by rw [printMembers]; exact no_newline_nil
  | [(k, v)] => by
    rw [printMembers]
    exact no_newline_append (strconvQuote_no_newline U k)
      (no_newline_cons (by decide) (printValue_no_newline U formatFloat hff v))
  | (k, v) :: y :: kvs => by
    rw [printMembers]
    exact no_newline_append (no_newline_append (no_newline_append (strconvQuote_no_newline U k)
      (no_newline_cons (by decide) (printValue_no_newline U formatFloat hff v))) (by decide))
      (printMembers_no_newline U formatFloat hff (y :: kvs))
end

theorem fmtSharpV_no_newline (U : UnicodeTables) (formatFloat : Float64 → Str)
    (hff : FloatTextPlain formatFloat) (d : GoValue) :
    ∀ c ∈ fmtSharpV U formatFloat d, c ≠ '\n' := by
  by_cases h : d = GoValue.nil
  · subst h
    show ∀ c ∈ "<nil>".toList, c ≠ '\n'
    decide
  · rw [fmtSharpV_of_ne_nil U formatFloat d h]
    exact printValue_no_newline U formatFloat hff d

/-- The data argument and the parenthesis after it do not begin with `func Test`. -/
theorem opening_fmtSharpV (U : UnicodeTables) (formatFloat : Float64 → Str)
    (hff : FloatTextPlain formatFloat) (d : GoValue) (w : Str) :
    routineOpening.isPrefixOf (fmtSharpV U formatFloat d ++ ')' :: w) = false := by
  have hz : (')' : Char) ≠ 'f' ∧ (')' : Char) ≠ 'u' ∧ (')' : Char) ≠ 'n' ∧ (')' : Char) ≠ 'c' ∧
      (')' : Char) ≠ ' ' := by decide
  cases d with
  | nil => exact opening_of_head '<' _ (by decide)
  | bool b =>
    cases b
    · exact opening_of_no_space "false".toList ')' w (by decide) hz
    · exact opening_of_head 't' _ (by decide)
  | int n =>
    show routineOpening.isPrefixOf (printValue U formatFloat (GoValue.int n) ++ ')' :: w) = false
    rw [printValue]
    exact opening_of_no_space _ _ _ (fun c hc => (fmtInt_plain n c hc).2) hz
  | float64 x =>
    show routineOpening.isPrefixOf
      (printValue U formatFloat (GoValue.float64 x) ++ ')' :: w) = false
    rw [printValue]
    exact opening_of_no_space _ _ _ (fun c hc => (hff x c hc).2) hz
  | string s =>
    show routineOpening.isPrefixOf
      (printValue U formatFloat (GoValue.string s) ++ ')' :: w) = false
    rw [printValue]
    exact opening_of_head dq _ (by decide)
  | slice xs =>
    show routineOpening.isPrefixOf
      (printValue U formatFloat (GoValue.slice xs) ++ ')' :: w) = false
    rw [printValue]
    exact opening_of_head '[' _ (by decide)
  | map kvs =>
    show routineOpening.isPrefixOf
      (printValue U formatFloat (GoValue.map kvs) ++ ')' :: w) = false
    rw [printValue]
    exact opening_of_head 'm' _ (by decide)

/-! ### One routine, and the whole text -/

theorem foldl_append_eq (U : UnicodeTables) :
    ∀ (kvs : List (Str × Str)) (acc : Str),
      kvs.foldl (fun acc kv => acc ++ partialLines U kv) acc =
        acc ++ (kvs.map (partialLines U)).flatten := by
  intro kvs
  induction kvs with
  | nil => intro acc; simp
  | cons kv kvs ih => intro acc; simp [List.foldl_cons, ih, List.append_assoc]

theorem partialLines_shape (U : UnicodeTables) (kv : Str × Str) (Y : Str) :
    partialLines U kv ++ Y =
      '\t' :: (("generatePartial(".toList ++ strconvQuote U (kv.1 ++ ".mustache".toList) ++
        ", ".toList ++ strconvQuote U kv.2 ++ ")".toList) ++
      ('\n' :: ('\t' :: (("defer os.Remove(".toList ++
        strconvQuote U (kv.1 ++ ".mustache".toList) ++ ")".toList) ++ ('\n' :: Y))))) := by
  simp [partialLines, List.append_assoc]

/-- The lines written for the partials of a case add no line that begins with
`func Test`. -/
theorem countLater_partials (U : UnicodeTables) :
    ∀ (kvs : List (Str × Str)) (Y : Str), routineOpening.isPrefixOf Y = false →
      routineOpening.isPrefixOf ((kvs.map (partialLines U)).flatten ++ Y) = false ∧
      countLaterRoutineLines ((kvs.map (partialLines U)).flatten ++ Y) =
        countLaterRoutineLines Y := by
  intro kvs
  induction kvs with
  | nil => intro Y hY; exact ⟨hY, rfl⟩
  | cons kv kvs ih =>
    intro Y hY
    obtain ⟨h1, h2⟩ := ih Y hY
    have hq1 := strconvQuote_no_newline U (kv.1 ++ ".mustache".toList)
    have hq2 := strconvQuote_no_newline U kv.2
    have hshape : ((kv :: kvs).map (partialLines U)).flatten ++ Y =
        partialLines U kv ++ ((kvs.map (partialLines U)).flatten ++ Y) := by
      simp [List.append_assoc]
    rw [hshape, partialLines_shape]
    constructor
    · exact opening_of_head '\t' _ (by decide)
    · rw [countLater_cons_of_ne '\t' _ (by decide),
        countLater_append_of_no_newline _ _
          (no_newline_append (no_newline_append (no_newline_append (no_newline_append
            (by decide) hq1) (by decide)) hq2) (by decide)),
        countLater_newline_quiet _ (opening_of_head '\t' _ (by decide)),
        countLater_cons_of_ne '\t' _ (by decide),
        countLater_append_of_no_newline _ _
          (no_newline_append (no_newline_append (by decide) hq1) (by decide)),
        countLater_newline_quiet _ h1, h2]

theorem testSpecText_shape (U : UnicodeTables) (formatFloat : Float64 → Str) (scope : Str)
    (test : JSONSpecTest) (v : Str) :
    testSpecText U formatFloat scope test ++ v =
      "func ".toList ++ routineName U scope test.Name ++ "(t *testing.T) \x7b".toList ++
        ('\n' :: ((((test.Partials.getD []).map (partialLines U)).flatten) ++
        ("testSpec(t,".toList ++ ('\n' :: (strconvQuote U test.Template ++ (','
          :: '\n' :: (strconvQuote U test.Expected ++ (',' :: '\n' ::
            (fmtSharpV U formatFloat test.Data ++ (')' :: '\n' ::
              ("\t\t\x7d".toList ++ ('\n' :: '\n' :: v)))))))))))) := by
  unfold testSpecText
  cases test.Partials with
  | none => simp [List.append_assoc]
  | some kvs => simp [foldl_append_eq, List.append_assoc]

theorem opening_strconvQuote (U : UnicodeTables) (s w : Str) :
    routineOpening.isPrefixOf (strconvQuote U s ++ w) = false := by
  show routineOpening.isPrefixOf (dq :: ((quoteBody U s ++ [dq]) ++ w)) = false
  exact opening_of_head dq _ (by decide)

theorem opening_closing (w : Str) :
    routineOpening.isPrefixOf ("\t\t\x7d".toList ++ w) = false := by
  show routineOpening.isPrefixOf ('\t' :: ("\t\x7d".toList ++ w)) = false
  exact opening_of_head '\t' _ (by decide)

/-- One emitted routine holds exactly one line that begins with `func Test`:
in front of any text, it adds one to the number of routines of that text. -/
theorem countTestRoutines_testSpecText (U : UnicodeTables) (formatFloat : Float64 → Str)
    (hU : TitleLeavesAscii U) (hff : FloatTextPlain formatFloat) (scope : Str)
    (test : JSONSpecTest) (v : Str) :
    countTestRoutines (testSpecText U formatFloat scope test ++ v) =
      1 + countTestRoutines v := by
  have hopen : routineOpening.isPrefixOf (testSpecText U formatFloat scope test ++ v) = true := by
    have hp : routineOpening <+: testSpecText U formatFloat scope test ++ v :=
      (testSpecText_opens U formatFloat scope test).trans (List.prefix_append _ _)
    exact List.isPrefixOf_iff_prefix.mpr hp
  have hcall : routineOpening.isPrefixOf ("testSpec(t,".toList ++ ('\n' ::
      (strconvQuote U test.Template ++ (',' :: '\n' :: (strconvQuote U test.Expected ++ (',' ::
        '\n' :: (fmtSharpV U formatFloat test.Data ++ (')' :: '\n' ::
          ("\t\t\x7d".toList ++ ('\n' :: '\n' :: v)))))))))) = false :=
    opening_of_head 't' _ (by decide)
  unfold countTestRoutines
  rw [hopen, testSpecText_shape, countLater_first_line U hU,
    countLater_newline_quiet _ (countLater_partials U _ _ hcall).1,
    (countLater_partials U _ _ hcall).2,
    countLater_append_of_no_newline _ _ (by decide),
    countLater_newline_quiet _ (opening_strconvQuote U _ _),
    countLater_append_of_no_newline _ _ (strconvQuote_no_newline U _),
    countLater_cons_of_ne ',' _ (by decide),
    countLater_newline_quiet _ (opening_strconvQuote U _ _),
    countLater_append_of_no_newline _ _ (strconvQuote_no_newline U _),
    countLater_cons_of_ne ',' _ (by decide),
    countLater_newline_quiet _ (opening_fmtSharpV U formatFloat hff _ _),
    countLater_append_of_no_newline _ _ (fmtSharpV_no_newline U formatFloat hff _),
    countLater_cons_of_ne ')' _ (by decide),
    countLater_newline_quiet _ (opening_closing _),
    countLater_append_of_no_newline _ _ (by decide),
    countLater_newline_quiet _ (opening_of_head '\n' _ (by decide)),
    countLater_newline]
  simp

theorem countTestRoutines_nil : countTestRoutines [] = 0 := rfl

theorem opening_stops_at_newline :
    ∀ (p u w : Str), (∀ a ∈ p, a ≠ '\n') →
      p.isPrefixOf (u ++ '\n' :: w) = p.isPrefixOf (u ++ ['\n']) := by
  intro p
  induction p with
  | nil => intro u w _; simp [List.isPrefixOf]
  | cons a p ih =>
    intro u w hp
    have ha : a ≠ '\n' := hp a (List.mem_cons_self _ _)
    have hb : (a == '\n') = false := by rw [beq_eq_false_iff_ne]; exact ha
    cases u with
    | nil => simp [List.isPrefixOf, hb]
    | cons c u =>
      show (a :: p).isPrefixOf (c :: (u ++ '\n' :: w)) = (a :: p).isPrefixOf (c :: (u ++ ['\n']))
      simp only [List.isPrefixOf]
      rw [ih u w (fun x hx => hp x (List.mem_cons_of_mem _ hx))]

/-- The lines of a text that ends with a newline are counted apart from the
lines of what follows it. -/
theorem countLater_append_newline (u w : Str) :
    countLaterRoutineLines (u ++ '\n' :: w) =
      countLaterRoutineLines (u ++ ['\n']) +
        ((if routineOpening.isPrefixOf w = true then 1 else 0) + countLaterRoutineLines w) := by
  induction u with
  | nil =>
    show countLaterRoutineLines ('\n' :: w) = countLaterRoutineLines ['\n'] + _
    rw [countLater_newline]
    simp [countLaterRoutineLines, routineOpening]
  | cons c u ih =>
    rw [List.cons_append, List.cons_append, countLaterRoutineLines, countLaterRoutineLines, ih,
      opening_stops_at_newline routineOpening u w (by decide)]
    omega

theorem headerRest_quiet : countLaterRoutineLines (headerRest ++ ['\n']) = 0 := by
  rfl

theorem writeHeader_shape (filename body : Str) :
    writeHeader filename ++ body =
      '\n' :: ("// generated by go run gen.go -output ".toList ++ (filename ++
        ("; DO NOT EDIT".toList ++ ('\n' :: (headerRest ++ ('\n' :: body)))))) := by
  unfold writeHeader headerRest
  simp only [List.append_assoc]
  rfl

/-- The header holds no line that begins with `func Test`, when the name of the
output file holds no newline. -/
theorem countTestRoutines_header (filename body : Str) (hfn : ∀ c ∈ filename, c ≠ '\n') :
    countTestRoutines (writeHeader filename ++ body) = countTestRoutines body := by
  have hrest : routineOpening.isPrefixOf (headerRest ++ ('\n' :: body)) = false :=
    opening_of_head '\n' _ (by decide)
  have hfirst : routineOpening.isPrefixOf ("// generated by go run gen.go -output ".toList ++
      (filename ++ ("; DO NOT EDIT".toList ++ ('\n' :: (headerRest ++ ('\n' :: body)))))) =
      false :=
    opening_of_head '/' _ (by decide)
  rw [writeHeader_shape]
  unfold countTestRoutines
  rw [opening_of_head '\n' _ (by decide), countLater_newline_quiet _ hfirst,
    countLater_append_of_no_newline _ _ (by decide),
    countLater_append_of_no_newline _ _ hfn,
    countLater_append_of_no_newline _ _ (by decide),
    countLater_newline_quiet _ hrest, countLater_append_newline, headerRest_quiet]
  simp

/-- A text made of routines that each add one routine holds as many routines
as the list is long. -/
theorem countTestRoutines_flatten (routines : List Str)
    (h : ∀ routine ∈ routines, ∀ v, countTestRoutines (routine ++ v) = 1 + countTestRoutines v) :
    countTestRoutines routines.flatten = routines.length := by
  induction routines with
  | nil => rfl
  | cons r rs ih =>
    rw [List.flatten_cons, h r (List.mem_cons_self _ _),
      ih (fun x hx => h x (List.mem_cons_of_mem _ hx)), List.length_cons]
    omega

theorem isTestRoutine_testSpecText (U : UnicodeTables) (formatFloat : Float64 → Str)
    (scope : Str) (test : JSONSpecTest) :
    IsTestRoutine (testSpecText U formatFloat scope test) := by
  refine ⟨routineName U scope test.Name,
    (match test.Partials with
      | none => []
      | some kvs => kvs.foldl (fun acc kv => acc ++ partialLines U kv) []) ++
    "testSpec(t,\n".toList ++
    (strconvQuote U test.Template ++ ",\n".toList ++ strconvQuote U test.Expected ++
      ",\n".toList ++ fmtSharpV U formatFloat test.Data) ++ ")\n\t\t".toList, ?_, ?_, ?_⟩
  · unfold testSpecText
    simp only [List.append_assoc]
    rfl
  · unfold routineName
    exact ⟨_, (List.append_assoc _ _ _).symm⟩
  · exact ⟨(match test.Partials with
      | none => []
      | some kvs => kvs.foldl (fun acc kv => acc ++ partialLines U kv) []),
      (strconvQuote U test.Template ++ ",\n".toList ++ strconvQuote U test.Expected ++
        ",\n".toList ++ fmtSharpV U formatFloat test.Data) ++ ")\n\t\t".toList,
      by simp only [List.append_assoc]⟩

theorem mem_expectedRoutines (env : Env) (entries : List WalkEntry) (routine : Str)
    (h : routine ∈ expectedRoutines env entries) :
    ∃ (scope : Str) (test : JSONSpecTest),
      routine = testSpecText env.U env.formatFloat scope test := by
  unfold expectedRoutines at h
  obtain ⟨e, _, hmem⟩ := List.mem_flatMap.mp h
  obtain ⟨t, _, ht⟩ := List.mem_map.mp hmem
  exact ⟨scopeOf e.path, t, ht.symm⟩

/-- C1 (coverage): when every retained file of the walk reads and deserializes,
the buffer after the walk is the header followed by exactly one routine per
case of every retained file, in walk order and then document order, and
nothing for any other file; the number of routines is the sum of the case
counts of the retained files.  Each routine is one complete test routine, and
the text after the header, counted by its lines that begin with `func Test`,
declares as many test routines as the retained files have cases; so does the
whole text when the name of the output file holds no newline.  A file is
retained when its path ends in `.json` and contains one of the five topic
strings. -/
theorem coverage (env : Env) (entries : List WalkEntry)
    (hok : ∀ e ∈ entries, Retained e.path → ∃ doc, docOf env e.path = some doc) :
    walk env (writeHeader env.filename) entries =
      some (writeHeader env.filename ++ (expectedRoutines env entries).flatten) ∧
    (expectedRoutines env entries).length =
      ((entries.filter (fun e => decide (Retained e.path))).map
        (fun e => (casesOf env e.path).length)).sum ∧
    (∀ routine ∈ expectedRoutines env entries,
      "func Test".toList <+: routine ∧ IsTestRoutine routine) ∧
    (TitleLeavesAscii env.U → FloatTextPlain env.formatFloat →
      ∃ body : Str,
        walk env (writeHeader env.filename) entries =
          some (writeHeader env.filename ++ body) ∧
        countTestRoutines body =
          ((entries.filter (fun e => decide (Retained e.path))).map
            (fun e => (casesOf env e.path).length)).sum ∧
        ((∀ c ∈ env.filename, c ≠ '\n') →
          countTestRoutines (writeHeader env.filename ++ body) =
            ((entries.filter (fun e => decide (Retained e.path))).map
              (fun e => (casesOf env e.path).length)).sum)) ∧
    (∀ data, env.formatSource
        (writeHeader env.filename ++ (expectedRoutines env entries).flatten) = some data →
      env.writeFile env.filename data = true →
      main env entries = { exit := Exit.ok, written := some data }) := by
  have hwalk := walk_eq env entries (writeHeader env.filename) hok
  refine ⟨hwalk, expectedRoutines_length env entries, ?_, ?_, ?_⟩
  · intro routine hr
    obtain ⟨scope, test, rfl⟩ := mem_expectedRoutines env entries routine hr
    exact ⟨testSpecText_opens _ _ _ _, isTestRoutine_testSpecText _ _ _ _⟩
  · intro hU hff
    have hcount : countTestRoutines (expectedRoutines env entries).flatten =
        ((entries.filter (fun e => decide (Retained e.path))).map
          (fun e => (casesOf env e.path).length)).sum := by
      rw [countTestRoutines_flatten, expectedRoutines_length]
      intro routine hr v
      obtain ⟨scope, test, rfl⟩ := mem_expectedRoutines env entries routine hr
      exact countTestRoutines_testSpecText env.U env.formatFloat hU hff scope test v
    refine ⟨_, hwalk, hcount, fun hfn => ?_⟩
    rw [countTestRoutines_header _ _ hfn, hcount]
  · intro data hfmt hwrite
    unfold main
    rw [hwalk]
    simp only [hfmt, hwrite, if_true]

theorem asciiTables_titleLeavesAscii : TitleLeavesAscii asciiTables :=
  fun _ h => Or.inl h

theorem coverage_witness :
    walk sampleEnv (writeHeader sampleEnv.filename)
        [{ path := "ext/spec/specs/".toList, err := false },
         { path := "ext/spec/specs/interpolation.json".toList, err := false },
         { path := "ext/spec/specs/partials.json".toList, err := false },
         { path := "ext/spec/specs/interpolation.yml".toList, err := false }] =
      some (writeHeader sampleEnv.filename ++
        (testSpecText asciiTables (fun _ => ['0']) "interpolation".toList sampleTest ++
          testSpecText asciiTables (fun _ => ['0']) "interpolation".toList
            samplePartialTest)) ∧
    ∃ body : Str,
      walk sampleEnv (writeHeader sampleEnv.filename)
        [{ path := "ext/spec/specs/".toList, err := false },
         { path := "ext/spec/specs/interpolation.json".toList, err := false },
         { path := "ext/spec/specs/partials.json".toList, err := false },
         { path := "ext/spec/specs/interpolation.yml".toList, err := false }] =
        some (writeHeader sampleEnv.filename ++ body) ∧
      countTestRoutines body = 2 ∧
      countTestRoutines (writeHeader sampleEnv.filename ++ body) = 2 :=
  have h := coverage sampleEnv
    [{ path := "ext/spec/specs/".toList, err := false },
     { path := "ext/spec/specs/interpolation.json".toList, err := false },
     { path := "ext/spec/specs/partials.json".toList, err := false },
     { path := "ext/spec/specs/interpolation.yml".toList, err := false }]
    (by
      intro e he hret
      simp only [List.mem_cons, List.mem_singleton, List.not_mem_nil, or_false] at he
      rcases he with h | h | h | h <;> subst h
      · exact absurd hret (by decide)
      · exact ⟨{ Tests := [sampleTest, samplePartialTest] }, rfl⟩
      · exact absurd hret (by decide)
      · exact absurd hret (by decide))
  ⟨h.1.trans (by rfl),
    (h.2.2.2.1 asciiTables_titleLeavesAscii
      (fun _ c hc => by
        have hc0 : c = '0' := by simpa [sampleEnv] using hc
        rw [hc0]; decide)).imp
      (fun _ hb => ⟨hb.1, hb.2.1.trans (by rfl), (hb.2.2 (by decide)).trans (by rfl)⟩)⟩

/-- C6 (fatal on malformed input): when some retained spec file cannot be read
or does not deserialize, the run ends fatally and `ioutil.WriteFile` is never
called, whatever was emitted into the buffer before the failing file. -/
theorem fatal_on_malformed_input (env : Env) (entries : List WalkEntry)
    (h : ∃ e ∈ entries, Retained e.path ∧
      (env.readFile e.path = none ∨
        ∃ data, env.readFile e.path = some data ∧ env.unmarshal data = none)) :
    main env entries = { exit := Exit.fatal, written := none } := by
  obtain ⟨e, he, hret, hfail⟩ := h
  have hw : walk env (writeHeader env.filename) entries = none :=
    walk_fatal env entries _ ⟨e, he, hret, (docOf_eq_none_iff env e.path).mpr hfail⟩
  unfold main
  rw [hw]

theorem fatal_on_malformed_input_witness :
    main sampleEnv
        [{ path := "ext/spec/specs/interpolation.json".toList, err := false },
         { path := "ext/spec/specs/sections.json".toList, err := false }] =
      { exit := Exit.fatal, written := none } :=
  fatal_on_malformed_input sampleEnv
    [{ path := "ext/spec/specs/interpolation.json".toList, err := false },
     { path := "ext/spec/specs/sections.json".toList, err := false }]
    ⟨{ path := "ext/spec/specs/sections.json".toList, err := false },
      by simp, by decide, Or.inl rfl⟩

/-- C7 (code behaviour): an error reported by the directory walk is not fatal.
The walk function never looks at its `err` argument, so the outcome of a run
does not depend on it; when the walk reports an error for the spec root (the
directory is missing), the run ends normally and writes the header alone. -/
theorem walk_error_is_ignored (env : Env) (entries : List WalkEntry) :
    main env entries =
      main env (entries.map (fun e => { path := e.path, err := false })) ∧
    main sampleEnv [{ path := "ext/spec/specs/".toList, err := true }] =
      { exit := Exit.ok, written := some (writeHeader "mustache_spec_test.go".toList) } := by
  constructor
  · unfold main
    rw [walk_err_irrelevant env entries]
  · rfl

end Mustache
